import Mathlib

/-!
Verification development for the zoo facility core: a weighted undirected
graph of enclosures (aviaries) with capacity- and compatibility-constrained
animal placement, and caretaker (employee) assignment.  The definitions
below are a shallow embedding of the C++ sources (`Graphs/ZooGraph.h`,
`Creatures/Animals.cpp`, `Creatures/AnimalManager.cpp`,
`Creatures/EmployeeManager.cpp`, `Creatures/Employee.cpp`); C++ `double`
weights are modelled as exact rationals, `std::unordered_map` as
association lists whose `operator[]` read defaults are made explicit.
-/

attribute [local semireducible] Rat.add

namespace Zoo

/-- Lexicographic comparison of character lists: the model of
`std::string::operator<` (bytewise for the ASCII ids used here). -/
def strLtB : List Char → List Char → Bool
  | [], [] => false
  | [], _ :: _ => true
  | _ :: _, [] => false
  | a :: as, b :: bs => if a < b then true else if b < a then false else strLtB as bs

/-! ## Association-list maps (model of `std::unordered_map` access by key) -/

/-- Association list keyed by strings; only keyed reads and writes of the
C++ maps are modelled, so iteration order never matters. -/
abbrev AMap (α : Type) := List (String × α)

/-- `m.find(k)` returning the mapped value if the key is present. -/
def amapGet? {α : Type} (m : AMap α) (k : String) : Option α :=
  match m with
  | [] => none
  | (k', v) :: rest => if k' = k then some v else amapGet? rest k

/-- `m[k] = v`: overwrite the binding of `k`, or insert it if absent. -/
def amapSet {α : Type} (m : AMap α) (k : String) (v : α) : AMap α :=
  match m with
  | [] => [(k, v)]
  | (k', v') :: rest => if k' = k then (k', v) :: rest else (k', v') :: amapSet rest k v

/-- Key membership test. -/
def amapHasKey {α : Type} (m : AMap α) (k : String) : Bool :=
  (amapGet? m k).isSome

/-- Remove the first element of a list satisfying `p`; also report whether
one was found (model of the erase-first-match loops in the C++ code). -/
def removeFirstP {α : Type} (p : α → Bool) : List α → List α × Bool
  | [] => ([], false)
  | x :: xs =>
    if p x then (xs, true)
    else
      let r := removeFirstP p xs
      (x :: r.1, r.2)

/-- Replace the first element equal to `a` by `b`; report whether a
replacement happened (model of `Employee::replaceAviary`'s scan). -/
def replaceFirst (l : List String) (a b : String) : List String × Bool :=
  match l with
  | [] => ([], false)
  | x :: xs =>
    if x = a then (b :: xs, true)
    else
      let r := replaceFirst xs a b
      (x :: r.1, r.2)

/-! ## Animals (`Animals.cpp`) -/

/-- The data of `class Animal` relevant to the core; `type` is the
biological category string and `species` the free-form species string. -/
structure Animal where
  id : String
  name : String
  species : String
  age : Int
  weight : ℚ
  type : String
  aviaryId : String
  isFed : Bool
deriving DecidableEq, Repr

/-- `Animal::isCompatibleWith`, the fixed rule table evaluated in order;
every rule returns `false` (incompatible) and only fall-through yields
`true`. -/
def isCompatibleWith (self other : Animal) : Bool :=
  if (self.species = "Lion" ∧ other.species = "Tiger") ∨
     (self.species = "Tiger" ∧ other.species = "Lion") ∨
     (self.species = "Wolf" ∧ other.species = "Bear") ∨
     (self.species = "Bear" ∧ other.species = "Wolf") then false
  else if (self.species = "Eagle" ∧ other.species = "Parrot") ∨
     (self.species = "Parrot" ∧ other.species = "Eagle") ∨
     (self.species = "Owl" ∧ other.species = "Crow") ∨
     (self.species = "Crow" ∧ other.species = "Owl") then false
  else if (self.species = "Snake" ∧ (other.type = "Mammal" ∨ other.type = "Bird")) ∨
     (other.species = "Snake" ∧ (self.type = "Mammal" ∨ self.type = "Bird")) then false
  else if (self.type = "Fish" ∧ other.type = "Fish") ∧
     (self.species = "Piranha" ∨ other.species = "Piranha") then false
  else if (self.type = "Amphibian" ∧ other.type = "Insect") ∨
     (self.type = "Insect" ∧ other.type = "Amphibian") then false
  else if self.type = "Arachnid" ∧
     (other.type = "Insect" ∨ other.type = "Amphibian" ∨ other.type = "Fish") then false
  else true

/-! ## Aviaries (`ZooGraph.cpp`, class `Aviary`) -/

/-- The data of `class Aviary` (a graph vertex with a payload). -/
structure Aviary where
  id : String
  name : String
  type : String
  area : ℚ
  capacity : Int
  assignedEmployee : String
  animals : List Animal
deriving DecidableEq, Repr

/-- `Aviary::hasAnimal`: membership of an animal id in the occupant list. -/
def hasAnimal (av : Aviary) (animalId : String) : Bool :=
  av.animals.any (fun a => a.id = animalId)

/-- `Aviary::canAddAnimal`: refuses when the animal is already present,
when the aviary is full (`(int)animals.size() >= capacity`), or when some
current occupant is incompatible in either direction. -/
def canAddAnimal (av : Aviary) (animal : Animal) : Bool :=
  if hasAnimal av animal.id then false
  else if (av.animals.length : Int) ≥ av.capacity then false
  else av.animals.all (fun existing =>
    isCompatibleWith existing animal ∧ isCompatibleWith animal existing)

/-- `Aviary::addAnimal`: append on success, otherwise leave the list
untouched; the Bool is the C++ return value. -/
def addAnimal (av : Aviary) (animal : Animal) : Aviary × Bool :=
  if canAddAnimal av animal then
    ({ av with animals := av.animals ++ [animal] }, true)
  else (av, false)

/-- `Aviary::removeAnimal`: erase the first occupant with the given id. -/
def removeAnimal (av : Aviary) (animalId : String) : Aviary × Bool :=
  let r := removeFirstP (fun a => a.id = animalId) av.animals
  ({ av with animals := r.1 }, r.2)

/-- `Aviary::setCapacity`: a plain field assignment. -/
def setCapacity (av : Aviary) (c : Int) : Aviary :=
  { av with capacity := c }

/-- `Aviary::setAssignedEmployee`. -/
def setAssignedEmployee (av : Aviary) (empId : String) : Aviary :=
  { av with assignedEmployee := empId }

/-- `Aviary::removeAssignedEmployee`: clears the back-reference. -/
def removeAssignedEmployee (av : Aviary) : Aviary :=
  { av with assignedEmployee := "" }

/-! ## Employees (`Employee.cpp`) -/

/-- The data of `class Employee`. -/
structure Employee where
  id : String
  name : String
  age : Int
  salary : Int
  experience : Int
  aviaryIds : List String
deriving DecidableEq, Repr

/-- `Employee::assignAviary`: push the aviary id onto the list. -/
def assignAviary (e : Employee) (aviary : String) : Employee :=
  { e with aviaryIds := e.aviaryIds ++ [aviary] }

/-- `Employee::replaceAviary`: replace the first occurrence of
`fromAviary` by `toAviary`; if none is found, append `toAviary` instead. -/
def replaceAviary (e : Employee) (fromAviary toAviary : String) : Employee :=
  let r := replaceFirst e.aviaryIds fromAviary toAviary
  if r.2 then { e with aviaryIds := r.1 }
  else { e with aviaryIds := e.aviaryIds ++ [toAviary] }

/-- `Employee::removeAviary`: erase every occurrence. -/
def removeAviary (e : Employee) (aviaryId : String) : Employee :=
  { e with aviaryIds := e.aviaryIds.filter (fun x => ¬ x = aviaryId) }

/-! ## Manager layer (`AnimalManager.cpp`, `EmployeeManager.cpp`)

The in-memory state a `ZooGraph` exposes to the two managers: the vertex
map (each vertex an `Aviary`), the animal index and the employee index.
Repository notifications are pure I/O and have no effect on this state. -/

structure ZooSt where
  aviaries : AMap Aviary
  animals : AMap Animal
  employees : AMap Employee
deriving DecidableEq, Repr

/-- `AnimalManager::addAnimalInAviary`.  On success the shared animal
object is stored in the aviary's list and `setAviaryId` is applied to it;
since the C++ pointer is shared between the index and the list, both views
carry the updated `aviaryId`. -/
def addAnimalInAviary (st : ZooSt) (aviaryId animalId : String) : ZooSt × Bool :=
  match amapGet? st.animals animalId, amapGet? st.aviaries aviaryId with
  | some animal, some aviary =>
    if canAddAnimal aviary animal then
      let animal' := { animal with aviaryId := aviaryId }
      let aviary' := { aviary with animals := aviary.animals ++ [animal'] }
      ({ st with aviaries := amapSet st.aviaries aviaryId aviary',
                 animals := amapSet st.animals animalId animal' }, true)
    else (st, false)
  | _, _ => (st, false)

/-- `AnimalManager::removeAnimalFromAviary`. -/
def removeAnimalFromAviary (st : ZooSt) (aviaryId animalId : String) : ZooSt × Bool :=
  match amapGet? st.aviaries aviaryId with
  | none => (st, false)
  | some aviary =>
    let r := removeAnimal aviary animalId
    if r.2 then ({ st with aviaries := amapSet st.aviaries aviaryId r.1 }, true)
    else (st, false)

/-- `AnimalManager::moveAnimalBetweenAviaries`: both aviaries and the
animal must exist, the animal must reside in the source, and the
destination must accept it; only then are the two membership lists
updated. -/
def moveAnimalBetweenAviaries (st : ZooSt) (fromAviaryId toAviaryId animalId : String) :
    ZooSt × Bool :=
  match amapGet? st.aviaries fromAviaryId, amapGet? st.aviaries toAviaryId with
  | some fromAviary, some toAviary =>
    match amapGet? st.animals animalId with
    | none => (st, false)
    | some animal =>
      if ¬ hasAnimal fromAviary animalId then (st, false)
      else if ¬ canAddAnimal toAviary animal then (st, false)
      else
        let from' := (removeAnimal fromAviary animalId).1
        let to' := (addAnimal toAviary animal).1
        ({ st with aviaries := amapSet (amapSet st.aviaries fromAviaryId from') toAviaryId to' },
         true)
  | _, _ => (st, false)

/-- `EmployeeManager::assignEmployeeToAviary`: requires only that the
employee and the aviary exist; the aviary's back-reference is overwritten
unconditionally and the aviary id is appended to the employee's list. -/
def assignEmployeeToAviary (st : ZooSt) (employeeId aviaryId : String) : ZooSt × Bool :=
  match amapGet? st.employees employeeId with
  | none => (st, false)
  | some emp =>
    match amapGet? st.aviaries aviaryId with
    | none => (st, false)
    | some aviary =>
      ({ st with
          aviaries := amapSet st.aviaries aviaryId (setAssignedEmployee aviary employeeId),
          employees := amapSet st.employees employeeId (assignAviary emp aviaryId) }, true)

/-- `EmployeeManager::reassignEmployee`: looks up both aviaries and the
employee, clears the `from` side, sets the `to` side, and applies
`Employee::replaceAviary`.  The two writes go through the pointers read
before any mutation, so when `from = to` the clear is overwritten by the
set and every other field keeps its original value. -/
def reassignEmployee (st : ZooSt) (empId fromAviaryId toAviaryId : String) : ZooSt × Bool :=
  match amapGet? st.aviaries fromAviaryId, amapGet? st.aviaries toAviaryId with
  | some fromAviary, some toAviary =>
    match amapGet? st.employees empId with
    | none => (st, false)
    | some emp =>
      let av1 := amapSet st.aviaries fromAviaryId (removeAssignedEmployee fromAviary)
      let av2 := amapSet av1 toAviaryId (setAssignedEmployee toAviary empId)
      ({ st with aviaries := av2,
                 employees := amapSet st.employees empId (replaceAviary emp fromAviaryId toAviaryId) },
       true)
  | _, _ => (st, false)

/-! ## Operation sequences over the placement layer -/

/-- The admission, eviction and relocation operations of §4.3, as invoked
through the manager. -/
inductive PlacementOp where
  | admitOp (aviaryId animalId : String)
  | evict (aviaryId animalId : String)
  | relocate (fromAviaryId toAviaryId animalId : String)
deriving DecidableEq, Repr

/-- One manager call (the Bool result is dropped). -/
def stepPlacement (st : ZooSt) : PlacementOp → ZooSt
  | .admitOp aviaryId animalId => (addAnimalInAviary st aviaryId animalId).1
  | .evict aviaryId animalId => (removeAnimalFromAviary st aviaryId animalId).1
  | .relocate f t animalId => (moveAnimalBetweenAviaries st f t animalId).1

/-- Run a sequence of placement operations. -/
def runPlacement (st : ZooSt) : List PlacementOp → ZooSt
  | [] => st
  | op :: ops => runPlacement (stepPlacement st op) ops

/-- Admission/eviction sequences against a single enclosure (§3's
capacity invariant quantifies over these). -/
inductive AviaryOp where
  | add (a : Animal)
  | remove (animalId : String)
deriving DecidableEq, Repr

/-- One `Aviary` call (the Bool result is dropped). -/
def stepAviary (av : Aviary) : AviaryOp → Aviary
  | .add a => (addAnimal av a).1
  | .remove animalId => (removeAnimal av animalId).1

/-- Run a sequence of single-aviary operations. -/
def runAviary (av : Aviary) : List AviaryOp → Aviary
  | [] => av
  | op :: ops => runAviary (stepAviary av op) ops

/-! ## The weighted undirected graph (`ZooGraph.h`, class `Graph`)

Vertices are represented by their id strings (the payload of a vertex is
irrelevant to the path algorithms); `double` edge weights are modelled as
exact rationals. -/

/-- One stored edge record; `Graph::addEdge` stores each undirected edge
as two records, one per direction. -/
structure EdgeR where
  fromId : String
  toId : String
  weight : ℚ
deriving DecidableEq, Repr

/-- The graph state: the vertex-map key set and the edge vector. -/
structure GraphSt where
  vertices : List String
  edges : List EdgeR
deriving DecidableEq, Repr

/-- `Graph::addVertex` (as a key-set operation: last write wins, so the
key set gains `id` if absent). -/
def addVertex (g : GraphSt) (id : String) : GraphSt :=
  if id ∈ g.vertices then g else { g with vertices := g.vertices ++ [id] }

/-- `Graph::addEdge`: requires both endpoints to exist, then appends the
two directed records; otherwise does nothing. -/
def addEdge (g : GraphSt) (fromId toId : String) (weight : ℚ) : GraphSt :=
  if fromId ∈ g.vertices ∧ toId ∈ g.vertices then
    { g with edges := g.edges ++ [⟨fromId, toId, weight⟩, ⟨toId, fromId, weight⟩] }
  else g

/-- A graph-construction call (`addVertex` / `addEdge`). -/
inductive BuildOp where
  | vertex (id : String)
  | edge (fromId toId : String) (weight : ℚ)
deriving DecidableEq, Repr

/-- Apply one construction call. -/
def buildStep (g : GraphSt) : BuildOp → GraphSt
  | .vertex id => addVertex g id
  | .edge f t w => addEdge g f t w

/-- A graph built from the empty graph via `addVertex`/`addEdge` calls. -/
def runBuild (ops : List BuildOp) : GraphSt :=
  ops.foldl buildStep { vertices := [], edges := [] }

/-! ### Dijkstra (`Graph::findPathByWeight`)

`dist` maps a vertex to `none` (IEEE infinity) or a finite rational; a
read of a missing key yields the value-initialised `0.0` that
`unordered_map::operator[]` inserts.  The binary-heap priority queue is
modelled as a list popped at its `std::pair`-least element. -/

/-- Read of `dist[k]` (`operator[]`: missing keys read as `0.0`). -/
def dget (dist : AMap (Option ℚ)) (k : String) : Option ℚ :=
  (amapGet? dist k).getD (some 0)

/-- Read of `parent[k]` (`operator[]`: missing keys read as `""`). -/
def pgetD (par : AMap String) (k : String) : String :=
  (amapGet? par k).getD ""

/-- `d > dist[u]` with `dist[u]` possibly infinite. -/
def qGtDv (d : ℚ) (dv : Option ℚ) : Bool :=
  match dv with
  | none => false
  | some q => q < d

/-- `nd < dist[v]`: a finite candidate beats infinity. -/
def qLtDv (nd : ℚ) (dv : Option ℚ) : Bool :=
  match dv with
  | none => true
  | some q => nd < q

/-- Strict `std::pair<double,string>` comparison (the heap's order). -/
def pairLtB (a b : ℚ × String) : Bool :=
  decide (a.1 < b.1) || (decide (a.1 = b.1) && strLtB a.2.data b.2.data)

/-- Pop the least element of the priority queue (the earliest occurrence
on exact ties, which distinct pushes never produce). -/
def popMin : List (ℚ × String) → Option ((ℚ × String) × List (ℚ × String))
  | [] => none
  | p :: rest =>
    match popMin rest with
    | none => some (p, [])
    | some (m, rest') => if pairLtB m p then some (m, p :: rest') else some (p, rest)

/-- The mutable state of one `findPathByWeight` call. -/
structure DijkstraSt where
  dist : AMap (Option ℚ)
  parent : AMap String
  pq : List (ℚ × String)
deriving DecidableEq, Repr

/-- Which endpoint of record `e` the scan relaxes from `u`: the `else if`
chain `if (e.getFrom() == u) ... else if (e.getTo() == u) ...`. -/
def target (e : EdgeR) (u : String) : Option String :=
  if e.fromId = u then some e.toId
  else if e.toId = u then some e.fromId
  else none

/-- Relax one edge record from vertex `u` popped at distance `d`. -/
def relaxOne (u : String) (d : ℚ) (st : DijkstraSt) (e : EdgeR) : DijkstraSt :=
  match target e u with
  | none => st
  | some v =>
    let nd := d + e.weight
    if qLtDv nd (dget st.dist v) then
      { dist := amapSet st.dist v (some nd),
        parent := amapSet st.parent v u,
        pq := (nd, v) :: st.pq }
    else st

/-- The edge scan of one Dijkstra iteration. -/
def relaxAll (edges : List EdgeR) (u : String) (d : ℚ) (st : DijkstraSt) : DijkstraSt :=
  edges.foldl (relaxOne u d) st

/-- The main Dijkstra loop with explicit fuel (`none` = fuel exhausted;
the fuel `dijkstraFuel` is proved sufficient below). -/
def dijkstraLoop (edges : List EdgeR) : Nat → DijkstraSt → Option DijkstraSt
  | 0, _ => none
  | fuel + 1, st =>
    match popMin st.pq with
    | none => some st
    | some ((d, u), pq') =>
      if qGtDv d (dget st.dist u) then
        dijkstraLoop edges fuel { st with pq := pq' }
      else
        dijkstraLoop edges fuel (relaxAll edges u d { st with pq := pq' })

/-- The initial distance map: every vertex at infinity, then
`dist[startId] = 0`. -/
def initDist (g : GraphSt) (startId : String) : AMap (Option ℚ) :=
  amapSet (g.vertices.map (fun v => (v, (none : Option ℚ)))) startId (some 0)

/-- The state at the top of the Dijkstra loop. -/
def initSt (g : GraphSt) (startId : String) : DijkstraSt :=
  { dist := initDist g startId, parent := [], pq := [(0, startId)] }

/-- The `for (v = endId; v != startId; v = parent[v])` reconstruction,
with fuel: `none` means the loop has not reached `startId` within `fuel`
steps (for no amount of fuel, when the parent chain never reaches it). -/
def reconstruct (par : AMap String) (startId : String) : Nat → String → Option (List String)
  | 0, _ => none
  | fuel + 1, v =>
    if v = startId then some [startId]
    else
      match reconstruct par startId fuel (pgetD par v) with
      | none => none
      | some path => some (path ++ [v])

/-- Loop fuel; the termination lemma shows it always suffices on
well-formed graphs. -/
def dijkstraFuel (g : GraphSt) : Nat :=
  (g.edges.length + 2) * (g.vertices.length + 1) + 2

/-- `Graph::findPathByWeight` with explicit fuels. -/
def findPathByWeightCore (g : GraphSt) (startId endId : String) (loopFuel recFuel : Nat) :
    Option (List String) :=
  match dijkstraLoop g.edges loopFuel (initSt g startId) with
  | none => none
  | some st =>
    match dget st.dist endId with
    | none => some []
    | some _ => reconstruct st.parent startId recFuel endId

/-- `Graph::findPathByWeight` at the canonical fuels (`none` models a
call that never returns). -/
def findPathByWeight (g : GraphSt) (startId endId : String) : Option (List String) :=
  findPathByWeightCore g startId endId (dijkstraFuel g) (g.vertices.length + 2)

/-- The first edge record matching an unordered pair, as scanned by the
summation loop of `Graph::distanceBetween`. -/
def firstMatchW (edges : List EdgeR) (a b : String) : Option ℚ :=
  (edges.find? (fun e =>
    (e.fromId = a ∧ e.toId = b) ∨ (e.toId = a ∧ e.fromId = b))).map (·.weight)

/-- The re-summation of `Graph::distanceBetween` along a vertex sequence
(a consecutive pair with no matching record contributes nothing). -/
def pathSum (g : GraphSt) (path : List String) : ℚ :=
  (path.zip path.tail).foldl (fun acc p => acc + (firstMatchW g.edges p.1 p.2).getD 0) 0

/-- `Graph::distanceBetween` (`none` models a call that never returns). -/
def distanceBetween (g : GraphSt) (fromId toId : String) : Option ℚ :=
  match findPathByWeight g fromId toId with
  | none => none
  | some path => if path = [] then some (-1) else some (pathSum g path)

/-! ### Reachability and well-formedness -/

/-- Some edge record joins `u` and `v` with weight `w` (either stored
direction). -/
def Adj (g : GraphSt) (u v : String) (w : ℚ) : Prop :=
  ∃ e ∈ g.edges, ((e.fromId = u ∧ e.toId = v) ∨ (e.toId = u ∧ e.fromId = v)) ∧ e.weight = w

/-- A walk from `s` to `v` whose edge weights sum to `q`. -/
inductive WalkW (g : GraphSt) (s : String) : String → ℚ → Prop
  | refl : WalkW g s s 0
  | step {u v : String} {q w : ℚ} : WalkW g s u q → Adj g u v w → WalkW g s v (q + w)

/-- `v` is reachable from `s`: a path (walk) between them exists. -/
def Reach (g : GraphSt) (s v : String) : Prop := ∃ q, WalkW g s v q

/-- The graph states reachable through the public mutators: edge records
reference existing vertices, weights are the documented non-negative
ones, and the vertex key set is duplicate-free. -/
structure WFGraph (g : GraphSt) : Prop where
  edges_from : ∀ e ∈ g.edges, e.fromId ∈ g.vertices
  edges_to : ∀ e ∈ g.edges, e.toId ∈ g.vertices
  nonneg : ∀ e ∈ g.edges, 0 ≤ e.weight
  nodup : g.vertices.Nodup

/-- Parallel edge records joining the same unordered pair carry the same
weight (holds whenever no two `addEdge` calls targeted one pair). -/
def PairConsistent (g : GraphSt) : Prop :=
  ∀ e₁ ∈ g.edges, ∀ e₂ ∈ g.edges,
    ((e₁.fromId = e₂.fromId ∧ e₁.toId = e₂.toId) ∨
     (e₁.fromId = e₂.toId ∧ e₁.toId = e₂.fromId)) → e₁.weight = e₂.weight

/-! ### Invariants of the Dijkstra loop

The loop is fuelled; the development below proves that `dijkstraFuel`
always suffices on well-formed graphs and characterises the final state.
`dUniv` is the set of strings that can ever appear in the queue or the
distance map. -/

/-- The vertex universe of one run: the start id and all vertices. -/
def dUniv (g : GraphSt) (s : String) : List String := s :: g.vertices

/-- The weight of an `addEdge` call (0 for `addVertex`). -/
def BuildOp.weightOf : BuildOp → ℚ
  | .vertex _ => 0
  | .edge _ _ w => w

/-- Some record of `l`, scanned from `u`, relaxes `v` with weight `w`. -/
def citesTarget (l : List EdgeR) (u v : String) (w : ℚ) : Prop :=
  ∃ e ∈ l, target e u = some v ∧ e.weight = w

/-- `u` is settled: its distance is final (at most every pending queue
key) and its own queue copy has been popped.  Settled vertices are never
relaxed again; each loop iteration settles the popped vertex or shortens
the queue, which bounds the iteration count. -/
def doneB (st : DijkstraSt) (floor : ℚ) (u : String) : Bool :=
  match dget st.dist u with
  | none => false
  | some q => decide (q ≤ floor) && decide ((q, u) ∉ st.pq)

/-- Loop variant: unsettled universe vertices weigh `edges + 2` (one
settling iteration can push up to `edges` new queue entries), plus the
queue length. -/
def dMeasure (g : GraphSt) (s : String) (st : DijkstraSt) (floor : ℚ) : Nat :=
  (g.edges.length + 2) * ((dUniv g s).dedup.countP (fun u => ! doneB st floor u)) +
    st.pq.length

/-- The loop invariant, relative to the least key `floor` popped so far. -/
structure DInv (g : GraphSt) (s : String) (st : DijkstraSt) (floor : ℚ) : Prop where
  floor_nonneg : 0 ≤ floor
  keys_eq : ∀ v, (amapGet? st.dist v).isSome ↔ v ∈ dUniv g s
  dist_start : dget st.dist s = some 0
  pq_floor : ∀ p ∈ st.pq, floor ≤ p.1
  pq_univ : ∀ p ∈ st.pq, p.2 ∈ dUniv g s
  pq_dist : ∀ p ∈ st.pq, ∃ q, dget st.dist p.2 = some q ∧ q ≤ p.1
  pq_nodup : st.pq.Nodup
  walk : ∀ v ∈ dUniv g s, ∀ q, dget st.dist v = some q → WalkW g s v q
  relaxc : ∀ u v w, Adj g u v w → ∀ q, dget st.dist u = some q →
    (∃ r, dget st.dist v = some r ∧ r ≤ q + w) ∨ (q, u) ∈ st.pq
  par : ∀ v u, amapGet? st.parent v = some u →
    v ∈ dUniv g s ∧ u ∈ dUniv g s ∧ v ≠ s ∧
    ∃ w qu qv, Adj g u v w ∧ dget st.dist u = some qu ∧ dget st.dist v = some qv ∧
      qu + w ≤ qv ∧ (qv = qu + w ∨ (qu, u) ∈ st.pq)
  par_dom : ∀ v ∈ dUniv g s, v ≠ s → ∀ q, dget st.dist v = some q →
    (amapGet? st.parent v).isSome
  tb : ∃ tb : String → ℚ, ∀ v u, amapGet? st.parent v = some u →
    ∀ qu qv, dget st.dist u = some qu → dget st.dist v = some qv → qu = qv → tb u < tb v

/-- The invariant of the edge-scan fold while vertex `u`, popped at key
`d`, is being relaxed; `remaining` is the unscanned suffix of the edge
vector. -/
structure RInv (g : GraphSt) (s : String) (u : String) (d : ℚ)
    (remaining : List EdgeR) (st : DijkstraSt) : Prop where
  d_nonneg : 0 ≤ d
  u_univ : u ∈ dUniv g s
  keys_eq : ∀ v, (amapGet? st.dist v).isSome ↔ v ∈ dUniv g s
  dist_start : dget st.dist s = some 0
  dist_u : dget st.dist u = some d
  not_in_pq : ((d, u) : ℚ × String) ∉ st.pq
  pq_floor : ∀ p ∈ st.pq, d ≤ p.1
  pq_univ : ∀ p ∈ st.pq, p.2 ∈ dUniv g s
  pq_dist : ∀ p ∈ st.pq, ∃ q, dget st.dist p.2 = some q ∧ q ≤ p.1
  pq_nodup : st.pq.Nodup
  walk : ∀ v ∈ dUniv g s, ∀ q, dget st.dist v = some q → WalkW g s v q
  relaxc : ∀ u' v w, Adj g u' v w → ∀ q, dget st.dist u' = some q →
    (∃ r, dget st.dist v = some r ∧ r ≤ q + w) ∨ (q, u') ∈ st.pq ∨
    (u' = u ∧ q = d ∧ citesTarget remaining u v w)
  par : ∀ v u', amapGet? st.parent v = some u' →
    v ∈ dUniv g s ∧ u' ∈ dUniv g s ∧ v ≠ s ∧
    ∃ w qu qv, Adj g u' v w ∧ dget st.dist u' = some qu ∧ dget st.dist v = some qv ∧
      qu + w ≤ qv ∧
      (qv = qu + w ∨ (qu, u') ∈ st.pq ∨ (u' = u ∧ qu = d ∧ citesTarget remaining u v w))
  par_dom : ∀ v ∈ dUniv g s, v ≠ s → ∀ q, dget st.dist v = some q →
    (amapGet? st.parent v).isSome
  tb : ∃ tb : String → ℚ, ∀ v u', amapGet? st.parent v = some u' →
    ∀ qu qv, dget st.dist u' = some qu → dget st.dist v = some qv → qu = qv → tb u' < tb v

/-- Strict rank order on vertices used to bound the parent-chain length:
first by final distance, ties broken by the invariant's tie-break
function. -/
def rnkB (dist : AMap (Option ℚ)) (tb : String → ℚ) (x v : String) : Bool :=
  match dget dist x, dget dist v with
  | some qx, some qv => decide (qx < qv) || (decide (qx = qv) && decide (tb x < tb v))
  | _, _ => false

/-- `p` is the parent chain of `v` as rebuilt by the reconstruction loop:
it starts at `s`, ends at `v`, and each element's predecessor is its
parent. -/
inductive ParChain (par : AMap String) (s : String) : List String → String → Prop
  | base : ParChain par s [s] s
  | step {p : List String} {v u : String} : ParChain par s p u →
      amapGet? par v = some u → v ≠ s → ParChain par s (p ++ [v]) v

/-! ## Invariants of the placement layer -/

/-- §3's pairwise-compatibility invariant for one enclosure: any two
occupants with distinct ids pass the compatibility check (quantifying
over ordered pairs covers both directions). -/
def AviaryOK (av : Aviary) : Prop :=
  ∀ a ∈ av.animals, ∀ b ∈ av.animals, a.id ≠ b.id → isCompatibleWith a b = true

/-- Every enclosure of the state satisfies the §3 invariant. -/
def ZooOK (st : ZooSt) : Prop := ∀ p ∈ st.aviaries, AviaryOK p.2

/-! ## Concrete instances used by counterexamples and witnesses -/

/-- A Reptile-category occupant whose species is not `"Snake"`. -/
def lizardC5 : Animal := ⟨"a1", "Liz", "Lizard", 3, 2, "Reptile", "", false⟩

/-- A Mammal-category occupant. -/
def dogC5 : Animal := ⟨"a2", "Rex", "Dog", 5, 30, "Mammal", "", false⟩

/-- A Snake-species occupant. -/
def snakeC5 : Animal := ⟨"a3", "Kaa", "Snake", 7, 12, "Reptile", "", false⟩

/-- Lion occupant for the single-aviary capacity scenarios. -/
def leo : Animal := ⟨"a4", "Leo", "Lion", 6, 190, "Mammal", "", false⟩

/-- Parrot occupant. -/
def polly : Animal := ⟨"a5", "Polly", "Parrot", 2, 1, "Bird", "", false⟩

/-- A full (capacity 1) aviary already holding one occupant. -/
def avC1 : Aviary := ⟨"A1", "Cats", "open", 100, 1, "", [leo]⟩

/-- An over-capacity scenario target for `setCapacity`. -/
def avC10 : Aviary := ⟨"A2", "Mixed", "open", 200, 5, "", [leo, polly]⟩

/-- A state with one aviary, one indexed animal and no employees. -/
def stC2 : ZooSt := ⟨[("A1", ⟨"A1", "Cats", "open", 100, 4, "", [leo]⟩)], [("a5", polly)], []⟩

/-- A state in which a relocation to a full destination fails. -/
def stC3 : ZooSt :=
  ⟨[("F", ⟨"F", "From", "open", 50, 3, "", [polly]⟩),
    ("T", ⟨"T", "To", "open", 50, 0, "", []⟩)],
   [("a5", polly)], []⟩

/-- A state whose aviary `"A"` already has caretaker `"e1"` assigned. -/
def stC8 : ZooSt :=
  ⟨[("A", ⟨"A", "Main", "open", 100, 5, "e1", []⟩)], [],
   [("e1", ⟨"e1", "Bob", 30, 1000, 5, ["A"]⟩), ("e2", ⟨"e2", "Eve", 25, 900, 3, []⟩)]⟩

/-- Aviary `"B"`, currently served by caretaker `"e9"`. -/
def avB : Aviary := ⟨"B", "Birds", "cage", 60, 8, "e9", []⟩

/-- Aviary `"C"`, with no caretaker. -/
def avC : Aviary := ⟨"C", "Cage", "cage", 40, 8, "", []⟩

/-- Caretaker `"e9"` with assignment list `["B"]`. -/
def empE9 : Employee := ⟨"e9", "Ann", 41, 1200, 15, ["B"]⟩

/-- A state used for the reassignment scenarios. -/
def stC9 : ZooSt := ⟨[("B", avB), ("C", avC)], [], [("e9", empE9)]⟩

/-- The single-vertex graph witnessing the `findPathByWeight` divergence
(`"X"` is not a vertex). -/
def gBug : GraphSt := ⟨["A"], []⟩

/-- The build sequence of the distance-asymmetry counterexample: two
parallel records join `s` and `x` (weights 5 then 3), and the two routes
`s-x-t` and `s-y-t` tie at total weight 5. -/
def opsC7 : List BuildOp :=
  [.vertex "s", .vertex "t", .vertex "x", .vertex "y",
   .edge "s" "x" 5, .edge "s" "x" 3, .edge "x" "t" 2, .edge "s" "y" 2, .edge "y" "t" 3]

/-- The distance-asymmetry counterexample graph. -/
def gC7 : GraphSt := runBuild opsC7

/-- A small well-formed graph for the witnesses: `a — b — c` with
weights 10 and 5 (spec §8, example scenario 1). -/
def gW : GraphSt := runBuild [.vertex "a", .vertex "b", .vertex "c",
  .edge "a" "b" 10, .edge "b" "c" 5]

/-! # General lemmas about the embedded data structures -/

theorem amapGet?_amapSet_self {α : Type} (m : AMap α) (k : String) (v : α) :
    amapGet? (amapSet m k v) k = some v := by
  induction m with
  | nil => simp [amapSet, amapGet?]
  | cons p rest ih =>
    obtain ⟨k', v'⟩ := p
    by_cases h : k' = k
    · simp [amapSet, amapGet?, h]
    · simp [amapSet, amapGet?, h, ih]

theorem amapGet?_amapSet_ne {α : Type} (m : AMap α) (k : String) (v : α) (k' : String)
    (h : k ≠ k') : amapGet? (amapSet m k v) k' = amapGet? m k' := by
  induction m with
  | nil => simp [amapSet, amapGet?, h]
  | cons p rest ih =>
    obtain ⟨k₀, v₀⟩ := p
    by_cases hk : k₀ = k
    · subst hk
      simp only [amapSet, if_pos rfl, amapGet?]
      rw [if_neg h, if_neg h]
    · simp only [amapSet, if_neg hk, amapGet?]
      by_cases hk' : k₀ = k'
      · rw [if_pos hk', if_pos hk']
      · rw [if_neg hk', if_neg hk', ih]

theorem mem_amapSet {α : Type} (m : AMap α) (k : String) (v : α) :
    ∀ p ∈ amapSet m k v, p = (k, v) ∨ p ∈ m := by
  induction m with
  | nil =>
    intro p hp
    simp only [amapSet, List.mem_singleton] at hp
    exact Or.inl hp
  | cons q rest ih =>
    obtain ⟨k₀, v₀⟩ := q
    by_cases hk : k₀ = k
    · subst hk
      intro p hp
      rw [amapSet, if_pos rfl] at hp
      rcases List.mem_cons.mp hp with h | h
      · exact Or.inl h
      · exact Or.inr (List.mem_cons_of_mem _ h)
    · intro p hp
      rw [amapSet, if_neg hk] at hp
      rcases List.mem_cons.mp hp with h | h
      · exact Or.inr (h ▸ List.mem_cons_self _ _)
      · rcases ih p h with h' | h'
        · exact Or.inl h'
        · exact Or.inr (List.mem_cons_of_mem _ h')

theorem amapGet?_mem {α : Type} (m : AMap α) (k : String) {v : α}
    (h : amapGet? m k = some v) : (k, v) ∈ m := by
  induction m with
  | nil => simp [amapGet?] at h
  | cons p rest ih =>
    obtain ⟨k₀, v₀⟩ := p
    by_cases hk : k₀ = k
    · subst hk
      rw [amapGet?, if_pos rfl] at h
      cases h
      exact List.mem_cons_self _ _
    · rw [amapGet?, if_neg hk] at h
      exact List.mem_cons_of_mem _ (ih h)

theorem removeFirstP_length_le {α : Type} (p : α → Bool) (l : List α) :
    (removeFirstP p l).1.length ≤ l.length := by
  induction l with
  | nil => simp [removeFirstP]
  | cons x xs ih =>
    rw [removeFirstP]
    by_cases h : p x
    · rw [if_pos h]
      exact Nat.le_succ_of_le (Nat.le_refl _)
    · rw [if_neg h]
      simpa using Nat.succ_le_succ ih

theorem mem_removeFirstP {α : Type} (p : α → Bool) (l : List α) :
    ∀ a ∈ (removeFirstP p l).1, a ∈ l := by
  induction l with
  | nil => simp [removeFirstP]
  | cons x xs ih =>
    intro a ha
    rw [removeFirstP] at ha
    by_cases h : p x
    · rw [if_pos h] at ha
      exact List.mem_cons_of_mem _ ha
    · rw [if_neg h] at ha
      rcases List.mem_cons.mp ha with h' | h'
      · exact h' ▸ List.mem_cons_self _ _
      · exact List.mem_cons_of_mem _ (ih a h')

theorem replaceFirst_not_mem (l : List String) (a b : String) (h : a ∉ l) :
    replaceFirst l a b = (l, false) := by
  induction l with
  | nil => simp [replaceFirst]
  | cons x xs ih =>
    simp only [List.mem_cons, not_or] at h
    rw [replaceFirst, if_neg (fun e => h.1 e.symm), ih h.2]

theorem replaceFirst_split (l₁ l₂ : List String) (a b : String) (h : a ∉ l₁) :
    replaceFirst (l₁ ++ a :: l₂) a b = (l₁ ++ b :: l₂, true) := by
  induction l₁ with
  | nil => simp [replaceFirst]
  | cons x xs ih =>
    simp only [List.mem_cons, not_or] at h
    simp only [List.cons_append, replaceFirst]
    rw [if_neg (fun e => h.1 e.symm)]
    rw [show xs.append (a :: l₂) = xs ++ a :: l₂ from rfl, ih h.2]

/-! ## Lemmas about admission -/

theorem canAddAnimal_length_lt {av : Aviary} {a : Animal}
    (h : canAddAnimal av a = true) : (av.animals.length : Int) < av.capacity := by
  by_cases h1 : hasAnimal av a.id
  · simp [canAddAnimal, h1] at h
  · by_cases h2 : (av.animals.length : Int) ≥ av.capacity
    · simp [canAddAnimal, h1, h2] at h
    · omega

theorem canAddAnimal_compat {av : Aviary} {a : Animal}
    (h : canAddAnimal av a = true) :
    ∀ ex ∈ av.animals, isCompatibleWith ex a = true ∧ isCompatibleWith a ex = true := by
  by_cases h1 : hasAnimal av a.id
  · simp [canAddAnimal, h1] at h
  · by_cases h2 : (av.animals.length : Int) ≥ av.capacity
    · simp [canAddAnimal, h1, h2] at h
    · simp only [canAddAnimal, h1, Bool.false_eq_true, if_false, h2, List.all_eq_true,
        decide_eq_true_eq] at h
      exact h

theorem canAddAnimal_at_capacity {av : Aviary} (a : Animal)
    (h : (av.animals.length : Int) ≥ av.capacity) : canAddAnimal av a = false := by
  by_cases h1 : hasAnimal av a.id
  · simp [canAddAnimal, h1]
  · simp [canAddAnimal, h1, h]

/-- The compatibility table only reads `species` and `type`, so updating
the shared pointer's `aviaryId` cannot change it. -/
theorem isCompatibleWith_setAviaryId_left (a x : Animal) (s : String) :
    isCompatibleWith { a with aviaryId := s } x = isCompatibleWith a x := rfl

theorem isCompatibleWith_setAviaryId_right (x a : Animal) (s : String) :
    isCompatibleWith x { a with aviaryId := s } = isCompatibleWith x a := rfl

theorem aviaryOK_append {av : Aviary} {x : Animal} (h : AviaryOK av)
    (hc : ∀ ex ∈ av.animals, isCompatibleWith ex x = true ∧ isCompatibleWith x ex = true) :
    AviaryOK { av with animals := av.animals ++ [x] } := by
  intro a ha b hb hab
  simp only [List.mem_append, List.mem_singleton] at ha hb
  rcases ha with ha | ha <;> rcases hb with hb | hb
  · exact h a ha b hb hab
  · subst hb
    exact (hc a ha).1
  · subst ha
    exact (hc b hb).2
  · subst ha hb
    exact absurd rfl hab

theorem aviaryOK_addAnimal (av : Aviary) (x : Animal) (h : AviaryOK av) :
    AviaryOK (addAnimal av x).1 := by
  by_cases hc : canAddAnimal av x
  · simpa [addAnimal, hc] using aviaryOK_append h (canAddAnimal_compat hc)
  · simpa [addAnimal, hc] using h

theorem aviaryOK_removeAnimal (av : Aviary) (aid : String) (h : AviaryOK av) :
    AviaryOK (removeAnimal av aid).1 := by
  intro a ha b hb hab
  exact h a (mem_removeFirstP _ _ a ha) b (mem_removeFirstP _ _ b hb) hab

/-! ## The single-aviary capacity invariant -/

theorem lenLe_stepAviary {av : Aviary}
    (h : (av.animals.length : Int) ≤ av.capacity) (op : AviaryOp) :
    ((stepAviary av op).animals.length : Int) ≤ (stepAviary av op).capacity := by
  cases op with
  | add a =>
    by_cases hc : canAddAnimal av a
    · have hlt := canAddAnimal_length_lt hc
      simp only [stepAviary, addAnimal, if_pos hc, List.length_append, List.length_singleton]
      push_cast
      omega
    · simpa [stepAviary, addAnimal, hc] using h
  | remove aid =>
    have hle := removeFirstP_length_le (fun a => a.id = aid) av.animals
    simp only [stepAviary, removeAnimal]
    have : ((removeFirstP (fun a => a.id = aid) av.animals).1.length : Int) ≤
        (av.animals.length : Int) := by exact_mod_cast hle
    omega

theorem lenLe_runAviary {av : Aviary}
    (h : (av.animals.length : Int) ≤ av.capacity) (ops : List AviaryOp) :
    ((runAviary av ops).animals.length : Int) ≤ (runAviary av ops).capacity := by
  induction ops generalizing av with
  | nil => exact h
  | cons op ops ih => exact ih (lenLe_stepAviary h op)

/-- **C1.** Capacity invariant: starting from an enclosure whose occupant
count is at most its capacity, every sequence of `addAnimal`/`removeAnimal`
calls keeps the count at most the capacity; and at capacity,
`canAddAnimal` answers `false` and `addAnimal` returns `false` without
mutating the enclosure. -/
theorem claim1_capacity_invariant (av : Aviary)
    (h : (av.animals.length : Int) ≤ av.capacity) :
    (∀ ops : List AviaryOp,
      ((runAviary av ops).animals.length : Int) ≤ (runAviary av ops).capacity) ∧
    ((av.animals.length : Int) = av.capacity →
      ∀ a, canAddAnimal av a = false ∧ addAnimal av a = (av, false)) := by
  refine ⟨fun ops => lenLe_runAviary h ops, fun heq a => ?_⟩
  have hfull : canAddAnimal av a = false := canAddAnimal_at_capacity a (le_of_eq heq.symm)
  exact ⟨hfull, by simp [addAnimal, hfull]⟩

/-- Witness for C1 at the full one-lion aviary. -/
theorem claim1_witness :
    ((avC1.animals.length : Int) ≤ avC1.capacity) ∧
    ((∀ ops : List AviaryOp,
        ((runAviary avC1 ops).animals.length : Int) ≤ (runAviary avC1 ops).capacity) ∧
     ((avC1.animals.length : Int) = avC1.capacity →
        ∀ a, canAddAnimal avC1 a = false ∧ addAnimal avC1 a = (avC1, false))) :=
  ⟨by decide, claim1_capacity_invariant avC1 (by decide)⟩

/-! ## C10: `setCapacity` is a plain field assignment -/

/-- **C10.** `setCapacity` touches only the capacity field: the occupant
list is unchanged, and on an enclosure left over capacity all subsequent
admissions are refused without mutation. -/
theorem claim10_setCapacity_frame (av : Aviary) (c : Int) :
    (setCapacity av c).animals = av.animals ∧
    (setCapacity av c).capacity = c ∧
    (c < (av.animals.length : Int) →
      ∀ a, canAddAnimal (setCapacity av c) a = false ∧
        addAnimal (setCapacity av c) a = (setCapacity av c, false)) := by
  refine ⟨rfl, rfl, fun hover a => ?_⟩
  have hfull : canAddAnimal (setCapacity av c) a = false := by
    apply canAddAnimal_at_capacity
    simp only [setCapacity]
    omega
  exact ⟨hfull, by simp [addAnimal, hfull]⟩

/-- Witness for C10: shrinking a two-occupant aviary to capacity 1. -/
theorem claim10_witness :
    (setCapacity avC10 1).animals = avC10.animals ∧
    (setCapacity avC10 1).capacity = 1 ∧
    ((1 : Int) < (avC10.animals.length : Int) →
      ∀ a, canAddAnimal (setCapacity avC10 1) a = false ∧
        addAnimal (setCapacity avC10 1) a = (setCapacity avC10 1, false)) :=
  claim10_setCapacity_frame avC10 1

/-! ## C5: the reptile compatibility rule -/

/-- **C5, counterexample.** The claimed rule "Reptile category against
Mammal or Bird category is incompatible" fails on the code: the rule as
implemented matches only the species string `"Snake"`, so a Reptile of
species `"Lizard"` is reported compatible with a Mammal in both
directions. -/
theorem claim5_counterexample :
    lizardC5.type = "Reptile" ∧ dogC5.type = "Mammal" ∧
    isCompatibleWith lizardC5 dogC5 = true ∧ isCompatibleWith dogC5 lizardC5 = true := by
  decide

/-- **C5, amended.** For every occupant of species `"Snake"` and every
occupant of Mammal or Bird category, the compatibility check reports the
pair incompatible in both directions. -/
theorem claim5_snake_rule (a b : Animal) (ha : a.species = "Snake")
    (hb : b.type = "Mammal" ∨ b.type = "Bird") :
    isCompatibleWith a b = false ∧ isCompatibleWith b a = false := by
  have hab : (a.species = "Snake" ∧ (b.type = "Mammal" ∨ b.type = "Bird")) ∨
      (b.species = "Snake" ∧ (a.type = "Mammal" ∨ a.type = "Bird")) := Or.inl ⟨ha, hb⟩
  have hba : (b.species = "Snake" ∧ (a.type = "Mammal" ∨ a.type = "Bird")) ∨
      (a.species = "Snake" ∧ (b.type = "Mammal" ∨ b.type = "Bird")) := Or.inr ⟨ha, hb⟩
  constructor
  · simp only [isCompatibleWith, if_pos hab]
    split <;> simp
  · simp only [isCompatibleWith, if_pos hba]
    split <;> simp

/-- Witness for the amended C5 at a concrete Snake/Mammal pair. -/
theorem claim5_witness :
    snakeC5.species = "Snake" ∧ (dogC5.type = "Mammal" ∨ dogC5.type = "Bird") ∧
    (isCompatibleWith snakeC5 dogC5 = false ∧ isCompatibleWith dogC5 snakeC5 = false) :=
  ⟨by decide, Or.inl (by decide), claim5_snake_rule snakeC5 dogC5 (by decide) (Or.inl (by decide))⟩

/-! ## C2: incompatible occupants never share an enclosure -/

theorem zooOK_stepPlacement (st : ZooSt) (op : PlacementOp) (h : ZooOK st) :
    ZooOK (stepPlacement st op) := by
  cases op with
  | admitOp avId aid =>
    simp only [stepPlacement, addAnimalInAviary]
    split
    · rename_i animal aviary hA hV
      split
      · rename_i hc
        intro p hp
        rcases mem_amapSet _ _ _ p hp with heq | hmem
        · subst heq
          refine aviaryOK_append (h _ (amapGet?_mem _ _ hV)) (fun ex hex => ?_)
          rw [isCompatibleWith_setAviaryId_right, isCompatibleWith_setAviaryId_left]
          exact canAddAnimal_compat hc ex hex
        · exact h p hmem
      · exact h
    · exact h
  | evict avId aid =>
    simp only [stepPlacement, removeAnimalFromAviary]
    split
    · exact h
    · rename_i aviary hV
      split
      · intro p hp
        rcases mem_amapSet _ _ _ p hp with heq | hmem
        · subst heq
          exact aviaryOK_removeAnimal _ _ (h _ (amapGet?_mem _ _ hV))
        · exact h p hmem
      · exact h
  | relocate f t aid =>
    simp only [stepPlacement, moveAnimalBetweenAviaries]
    split
    · rename_i fromAv toAv hF hT
      split
      · exact h
      · rename_i animal hA
        split
        · exact h
        · split
          · exact h
          · intro p hp
            rcases mem_amapSet _ _ _ p hp with heq | hmem
            · subst heq
              exact aviaryOK_addAnimal _ _ (h _ (amapGet?_mem _ _ hT))
            · rcases mem_amapSet _ _ _ p hmem with heq' | hmem'
              · subst heq'
                exact aviaryOK_removeAnimal _ _ (h _ (amapGet?_mem _ _ hF))
              · exact h p hmem'
    · exact h

theorem zooOK_runPlacement (st : ZooSt) (ops : List PlacementOp) (h : ZooOK st) :
    ZooOK (runPlacement st ops) := by
  induction ops generalizing st with
  | nil => exact h
  | cons op ops ih => exact ih _ (zooOK_stepPlacement st op h)

/-- **C2.** Starting from a state whose enclosures are pairwise
compatible, after any sequence of admit/evict/relocate calls no enclosure
holds two distinct occupants that the rule table flags incompatible in
either direction. -/
theorem claim2_incompatible_never_together (st₀ : ZooSt) (h : ZooOK st₀)
    (ops : List PlacementOp) :
    ∀ p ∈ (runPlacement st₀ ops).aviaries, ∀ a ∈ p.2.animals, ∀ b ∈ p.2.animals,
      a.id ≠ b.id → isCompatibleWith a b = true ∧ isCompatibleWith b a = true := by
  intro p hp a ha b hb hab
  have hOK := zooOK_runPlacement st₀ ops h
  exact ⟨hOK p hp a ha b hb hab, hOK p hp b hb a ha (fun e => hab e.symm)⟩

/-- Witness for C2: admitting the parrot into the lion's aviary. -/
theorem claim2_witness :
    ZooOK stC2 ∧
    (∀ p ∈ (runPlacement stC2 [PlacementOp.admitOp "A1" "a5"]).aviaries,
      ∀ a ∈ p.2.animals, ∀ b ∈ p.2.animals,
        a.id ≠ b.id → isCompatibleWith a b = true ∧ isCompatibleWith b a = true) :=
  ⟨by unfold ZooOK AviaryOK; decide,
   claim2_incompatible_never_together stC2 (by unfold ZooOK AviaryOK; decide) _⟩

/-! ## C3: relocation is all-or-nothing -/

/-- **C3.** `moveAnimalBetweenAviaries` returns `true` exactly when both
aviaries and the animal are known, the animal resides in the source and
the destination accepts it; any failing call leaves the state untouched. -/
theorem claim3_relocate_all_or_nothing (st : ZooSt) (f t aid : String) :
    ((moveAnimalBetweenAviaries st f t aid).2 = true ↔
      ∃ fromAv toAv animal,
        amapGet? st.aviaries f = some fromAv ∧ amapGet? st.aviaries t = some toAv ∧
        amapGet? st.animals aid = some animal ∧
        hasAnimal fromAv aid = true ∧ canAddAnimal toAv animal = true) ∧
    ((moveAnimalBetweenAviaries st f t aid).2 = false →
      (moveAnimalBetweenAviaries st f t aid).1 = st) := by
  rcases hF : amapGet? st.aviaries f with _ | fromAv <;>
    rcases hT : amapGet? st.aviaries t with _ | toAv <;>
    rcases hA : amapGet? st.animals aid with _ | animal <;>
      simp only [moveAnimalBetweenAviaries, hF, hT, hA] <;>
      try simp [hF, hT, hA]
  by_cases hHas : hasAnimal fromAv aid
  · by_cases hCan : canAddAnimal toAv animal
    · simp [hHas, hCan]
    · simp [hHas, hCan]
  · simp [hHas]

/-- Witness for C3: the relocation into the zero-capacity aviary fails
and leaves the state unchanged. -/
theorem claim3_witness : (moveAnimalBetweenAviaries stC3 "F" "T" "a5").1 = stC3 :=
  (claim3_relocate_all_or_nothing stC3 "F" "T" "a5").2 (by decide)

/-! ## C8: assignment silently overwrites an existing caretaker -/

/-- **C8, counterexample.** Aviary `"A"` already has caretaker `"e1"`,
yet assigning `"e2"` succeeds and overwrites the back-reference, where
the claim demands failure with the field unchanged. -/
theorem claim8_counterexample :
    ((amapGet? stC8.aviaries "A").map Aviary.assignedEmployee = some "e1") ∧
    (assignEmployeeToAviary stC8 "e2" "A").2 = true ∧
    ((amapGet? (assignEmployeeToAviary stC8 "e2" "A").1.aviaries "A").map
        Aviary.assignedEmployee = some "e2") := by
  decide

/-- **C8, amended.** `assignEmployeeToAviary` succeeds exactly when the
employee and the enclosure exist; on success it overwrites the
enclosure's caretaker field unconditionally (even if a different
caretaker was assigned) and appends the enclosure to the employee's own
list; on failure the state is untouched. -/
theorem claim8_assign_overwrites (st : ZooSt) (empId avId : String) :
    ((assignEmployeeToAviary st empId avId).2 = true ↔
      (amapGet? st.employees empId).isSome ∧ (amapGet? st.aviaries avId).isSome) ∧
    (∀ emp, amapGet? st.employees empId = some emp →
      ∀ av, amapGet? st.aviaries avId = some av →
      (assignEmployeeToAviary st empId avId).1.aviaries =
        amapSet st.aviaries avId (setAssignedEmployee av empId) ∧
      (assignEmployeeToAviary st empId avId).1.employees =
        amapSet st.employees empId (assignAviary emp avId)) ∧
    ((assignEmployeeToAviary st empId avId).2 = false →
      (assignEmployeeToAviary st empId avId).1 = st) := by
  rcases hE : amapGet? st.employees empId with _ | emp <;>
    rcases hV : amapGet? st.aviaries avId with _ | av <;>
      simp [assignEmployeeToAviary, hE, hV]

/-- Witness for the amended C8: the overwriting assignment succeeds. -/
theorem claim8_witness : (assignEmployeeToAviary stC8 "e2" "A").2 = true :=
  (claim8_assign_overwrites stC8 "e2" "A").1.mpr ⟨by decide, by decide⟩

/-! ## C9: reassignment postconditions -/

/-- **C9, counterexample.** When the two enclosure ids coincide (both
aviaries exist, as the claim requires), the `from` side is not cleared:
the clear is overwritten by the subsequent set, so the field ends up
holding the employee id. -/
theorem claim9_counterexample :
    (amapGet? stC9.aviaries "B").isSome ∧ (amapGet? stC9.employees "e9").isSome ∧
    (reassignEmployee stC9 "e9" "B" "B").2 = true ∧
    ((amapGet? (reassignEmployee stC9 "e9" "B" "B").1.aviaries "B").map
        Aviary.assignedEmployee = some "e9") ∧
    ¬ ((amapGet? (reassignEmployee stC9 "e9" "B" "B").1.aviaries "B").map
        Aviary.assignedEmployee = some "") := by
  decide

/-- **C9, amended.** For distinct source and destination enclosures that
both exist, together with the employee: afterwards the source caretaker
field is cleared, the destination field holds the employee, and the
employee's list has its first occurrence of the source replaced by the
destination (the destination is appended when the source does not occur);
the rest of the list is unchanged. -/
theorem claim9_reassign_postconditions (st : ZooSt) (empId f t : String)
    (fromAv : Aviary) (hf : amapGet? st.aviaries f = some fromAv)
    (toAv : Aviary) (ht : amapGet? st.aviaries t = some toAv)
    (emp : Employee) (he : amapGet? st.employees empId = some emp)
    (hne : f ≠ t) :
    (reassignEmployee st empId f t).2 = true ∧
    amapGet? (reassignEmployee st empId f t).1.aviaries f =
      some (removeAssignedEmployee fromAv) ∧
    amapGet? (reassignEmployee st empId f t).1.aviaries t =
      some (setAssignedEmployee toAv empId) ∧
    amapGet? (reassignEmployee st empId f t).1.employees empId =
      some (replaceAviary emp f t) ∧
    (f ∉ emp.aviaryIds → (replaceAviary emp f t).aviaryIds = emp.aviaryIds ++ [t]) ∧
    (∀ l₁ l₂, emp.aviaryIds = l₁ ++ f :: l₂ → f ∉ l₁ →
      (replaceAviary emp f t).aviaryIds = l₁ ++ t :: l₂) := by
  have hres : reassignEmployee st empId f t =
      ({ st with
          aviaries := amapSet (amapSet st.aviaries f (removeAssignedEmployee fromAv)) t
            (setAssignedEmployee toAv empId),
          employees := amapSet st.employees empId (replaceAviary emp f t) }, true) := by
    simp [reassignEmployee, hf, ht, he]
  refine ⟨by simp [hres], ?_, ?_, ?_, ?_, ?_⟩
  · simp only [hres]
    rw [amapGet?_amapSet_ne _ t _ f (Ne.symm hne), amapGet?_amapSet_self]
  · simp only [hres]
    rw [amapGet?_amapSet_self]
  · simp only [hres]
    rw [amapGet?_amapSet_self]
  · intro hmem
    simp only [replaceAviary]
    rw [replaceFirst_not_mem _ f t hmem]
    simp
  · intro l₁ l₂ hsplit hnm
    simp only [replaceAviary]
    rw [hsplit, replaceFirst_split l₁ l₂ f t hnm]
    simp

/-- Witness for the amended C9: reassigning `"e9"` from `"B"` to `"C"`
clears `"B"`'s caretaker field. -/
theorem claim9_witness :
    amapGet? (reassignEmployee stC9 "e9" "B" "C").1.aviaries "B" =
      some (removeAssignedEmployee avB) :=
  (claim9_reassign_postconditions stC9 "e9" "B" "C" avB (by decide) avC (by decide)
    empE9 (by decide) (by decide)).2.1

/-! ## C4: `findPathByWeight` on an unknown end vertex never returns

With `endId` unknown (and distinct from `startId`), `dist[endId]` is
value-initialised to `0.0` by `operator[]`, which is not infinity, so the
code enters path reconstruction; there `parent[endId]` reads as `""` and
`parent[""]` reads as `""` again, so the loop `v = parent[v]` never
reaches `startId`: the call diverges instead of returning an empty
sequence. -/

theorem dijkstraLoop_nil_pq (edges : List EdgeR) (k : Nat) (st : DijkstraSt)
    (h : st.pq = []) : dijkstraLoop edges (k + 1) st = some st := by
  rw [dijkstraLoop, h]
  rfl

theorem reconstruct_empty_stuck (startId : String) (h : startId ≠ "") :
    ∀ n, reconstruct [] startId n "" = none := by
  intro n
  induction n with
  | zero => rfl
  | succ n ih =>
    rw [reconstruct, if_neg (Ne.symm h)]
    have hp : pgetD ([] : AMap String) "" = "" := rfl
    rw [hp, ih]

theorem reconstruct_unknown_stuck : ∀ n, reconstruct [] "A" n "X" = none := by
  intro n
  match n with
  | 0 => rfl
  | k + 1 =>
    rw [reconstruct, if_neg (by decide : ¬ ("X" = "A"))]
    have hp : pgetD ([] : AMap String) "X" = "" := rfl
    rw [hp, reconstruct_empty_stuck "A" (by decide) k]

/-! ## Priority-queue lemmas -/

theorem popMin_eq_none (pq : List (ℚ × String)) : popMin pq = none ↔ pq = [] := by
  cases pq with
  | nil => simp [popMin]
  | cons p rest =>
    rw [popMin]
    cases h : popMin rest with
    | none => simp
    | some pr =>
      obtain ⟨m, rest'⟩ := pr
      by_cases hlt : pairLtB m p = true <;> simp [hlt]

theorem popMin_perm (pq : List (ℚ × String)) (p : ℚ × String) (rest : List (ℚ × String))
    (h : popMin pq = some (p, rest)) : pq.Perm (p :: rest) := by
  induction pq generalizing p rest with
  | nil => simp [popMin] at h
  | cons q tl ih =>
    rw [popMin] at h
    cases htl : popMin tl with
    | none =>
      rw [htl] at h
      cases h
      exact ((popMin_eq_none tl).mp htl) ▸ List.Perm.refl _
    | some pr =>
      obtain ⟨m, rest'⟩ := pr
      rw [htl] at h
      dsimp only at h
      by_cases hlt : pairLtB m q = true
      · rw [if_pos hlt] at h
        cases h
        exact List.Perm.trans ((ih _ _ htl).cons q) (List.Perm.swap _ q _)
      · rw [if_neg hlt] at h
        cases h
        exact List.Perm.refl _

theorem pairLtB_true_le {a b : ℚ × String} (h : pairLtB a b = true) : a.1 ≤ b.1 := by
  rcases Bool.or_eq_true_iff.mp h with h' | h'
  · exact le_of_lt (of_decide_eq_true h')
  · exact le_of_eq (of_decide_eq_true (Bool.and_eq_true_iff.mp h').1)

theorem pairLtB_false_le {a b : ℚ × String} (h : pairLtB a b = false) : b.1 ≤ a.1 := by
  by_contra hc
  push_neg at hc
  have : pairLtB a b = true := by
    unfold pairLtB
    rw [decide_eq_true hc]
    rfl
  rw [this] at h
  cases h

theorem popMin_le (pq : List (ℚ × String)) (p : ℚ × String) (rest : List (ℚ × String))
    (h : popMin pq = some (p, rest)) : ∀ x ∈ rest, p.1 ≤ x.1 := by
  induction pq generalizing p rest with
  | nil => simp [popMin] at h
  | cons q tl ih =>
    rw [popMin] at h
    cases htl : popMin tl with
    | none =>
      rw [htl] at h
      cases h
      simp
    | some pr =>
      obtain ⟨m, rest'⟩ := pr
      rw [htl] at h
      dsimp only at h
      by_cases hlt : pairLtB m q = true
      · rw [if_pos hlt] at h
        cases h
        intro x hx
        rcases List.mem_cons.mp hx with hx | hx
        · exact hx ▸ pairLtB_true_le hlt
        · exact ih _ _ htl x hx
      · rw [if_neg hlt] at h
        cases h
        intro x hx
        have hperm := popMin_perm tl m rest' htl
        rcases List.mem_cons.mp (hperm.mem_iff.mp hx) with hx' | hx'
        · exact hx' ▸ pairLtB_false_le (Bool.eq_false_iff.mpr (fun e => hlt e))
        · exact le_trans (pairLtB_false_le (Bool.eq_false_iff.mpr (fun e => hlt e)))
            (ih m rest' htl x hx')

/-! ## Edge-target lemmas -/

theorem target_mem_adj {g : GraphSt} {e : EdgeR} {u v : String}
    (he : e ∈ g.edges) (ht : target e u = some v) : Adj g u v e.weight := by
  unfold target at ht
  by_cases h1 : e.fromId = u
  · rw [if_pos h1] at ht
    cases ht
    exact ⟨e, he, Or.inl ⟨h1, rfl⟩, rfl⟩
  · rw [if_neg h1] at ht
    by_cases h2 : e.toId = u
    · rw [if_pos h2] at ht
      cases ht
      exact ⟨e, he, Or.inr ⟨h2, rfl⟩, rfl⟩
    · rw [if_neg h2] at ht
      cases ht

theorem adj_cites {l : List EdgeR} {u v : String} {w : ℚ}
    (h : ∃ e ∈ l, ((e.fromId = u ∧ e.toId = v) ∨ (e.toId = u ∧ e.fromId = v)) ∧ e.weight = w) :
    citesTarget l u v w := by
  obtain ⟨e, he, hcase, hw⟩ := h
  refine ⟨e, he, ?_, hw⟩
  rcases hcase with ⟨h1, h2⟩ | ⟨h1, h2⟩
  · rw [target, if_pos h1, h2]
  · by_cases h3 : e.fromId = u
    · rw [target, if_pos h3]
      rw [h3] at h2
      rw [← h2, h1]
    · rw [target, if_neg h3, if_pos h1, h2]

theorem cites_target_adj {g : GraphSt} {u v : String} {w : ℚ}
    (h : citesTarget g.edges u v w) : Adj g u v w := by
  obtain ⟨e, he, ht, hw⟩ := h
  exact hw ▸ target_mem_adj he ht

/-! ## Distance-map read lemmas -/

theorem dget_amapSet_self (m : AMap (Option ℚ)) (k : String) (v : Option ℚ) :
    dget (amapSet m k v) k = v := by
  rw [dget, amapGet?_amapSet_self]
  rfl

theorem dget_amapSet_ne (m : AMap (Option ℚ)) (k : String) (v : Option ℚ) (x : String)
    (h : k ≠ x) : dget (amapSet m k v) x = dget m x := by
  rw [dget, amapGet?_amapSet_ne _ _ _ _ h, dget]

theorem isSome_amapSet {α : Type} (m : AMap α) (k : String) (v : α) (x : String) :
    (amapGet? (amapSet m k v) x).isSome = ((x = k) ∨ (amapGet? m x).isSome : Prop) := by
  by_cases h : k = x
  · subst h
    rw [amapGet?_amapSet_self]
    simp
  · rw [amapGet?_amapSet_ne _ _ _ _ h]
    have hne : ¬ (x = k) := fun e => h e.symm
    simp [hne]

theorem qLtDv_some_lt {nd : ℚ} {dv : Option ℚ} (h : qLtDv nd dv = true) :
    ∀ r, dv = some r → nd < r := by
  intro r hr
  subst hr
  exact of_decide_eq_true h

theorem qLtDv_false_le {nd : ℚ} {dv : Option ℚ} (h : qLtDv nd dv = false) :
    ∃ r, dv = some r ∧ r ≤ nd := by
  cases dv with
  | none => cases h
  | some r =>
    refine ⟨r, rfl, ?_⟩
    have := of_decide_eq_false h
    exact le_of_not_lt this

theorem adj_nonneg {g : GraphSt} (hwf : WFGraph g) {u v : String} {w : ℚ}
    (h : Adj g u v w) : 0 ≤ w := by
  obtain ⟨e, he, _, hw⟩ := h
  exact hw ▸ hwf.nonneg e he

theorem target_univ {g : GraphSt} (s : String) {e : EdgeR} {u v : String}
    (hwf : WFGraph g) (he : e ∈ g.edges) (ht : target e u = some v) : v ∈ dUniv g s := by
  unfold target at ht
  by_cases h1 : e.fromId = u
  · rw [if_pos h1] at ht
    cases ht
    exact List.mem_cons_of_mem _ (hwf.edges_to e he)
  · rw [if_neg h1] at ht
    by_cases h2 : e.toId = u
    · rw [if_pos h2] at ht
      cases ht
      exact List.mem_cons_of_mem _ (hwf.edges_from e he)
    · rw [if_neg h2] at ht
      cases ht

theorem citesTarget_cons_elim {e : EdgeR} {rest : List EdgeR} {u v : String} {w : ℚ}
    (h : citesTarget (e :: rest) u v w) :
    (target e u = some v ∧ e.weight = w) ∨ citesTarget rest u v w := by
  obtain ⟨e₀, he₀, ht, hw⟩ := h
  rcases List.mem_cons.mp he₀ with heq | hmem
  · exact Or.inl (heq ▸ ⟨ht, hw⟩)
  · exact Or.inr ⟨e₀, hmem, ht, hw⟩

/-! ## Preservation of the scan invariant by one edge relaxation -/

theorem rinv_relaxOne (g : GraphSt) (s : String) (hwf : WFGraph g)
    (u : String) (d : ℚ) (e : EdgeR) (rest : List EdgeR) (st : DijkstraSt)
    (he : e ∈ g.edges) (h : RInv g s u d (e :: rest) st) :
    RInv g s u d rest (relaxOne u d st e) := by
  obtain ⟨hd0, huU, hkeys, hds, hdu, hnip, hpf, hpu, hpd, hpn, hwalk, hrel, hpar, hpdom, htb⟩ := h
  rw [relaxOne]
  cases ht : target e u with
  | none =>
    dsimp only
    refine ⟨hd0, huU, hkeys, hds, hdu, hnip, hpf, hpu, hpd, hpn, hwalk, ?_, ?_, hpdom, htb⟩
    · intro u' v w hadj q hq
      rcases hrel u' v w hadj q hq with hl | hm | ⟨hu', hq', hc⟩
      · exact Or.inl hl
      · exact Or.inr (Or.inl hm)
      · rcases citesTarget_cons_elim hc with ⟨ht', _⟩ | hc'
        · rw [ht'] at ht
          cases ht
        · exact Or.inr (Or.inr ⟨hu', hq', hc'⟩)
    · intro x u' hp
      obtain ⟨hxU, hu'U, hxs, w, qu, qv, hadj, hqu, hqv, hle, hdisj⟩ := hpar x u' hp
      refine ⟨hxU, hu'U, hxs, w, qu, qv, hadj, hqu, hqv, hle, ?_⟩
      rcases hdisj with he' | hm | ⟨hu', hq', hc⟩
      · exact Or.inl he'
      · exact Or.inr (Or.inl hm)
      · rcases citesTarget_cons_elim hc with ⟨ht', _⟩ | hc'
        · rw [ht'] at ht
          cases ht
        · exact Or.inr (Or.inr ⟨hu', hq', hc'⟩)
  | some v =>
    dsimp only
    have hw0 : 0 ≤ e.weight := hwf.nonneg e he
    have hndge : d ≤ d + e.weight := by linarith
    have hvU : v ∈ dUniv g s := target_univ s hwf he ht
    have hadj_uv : Adj g u v e.weight := target_mem_adj he ht
    by_cases himp : qLtDv (d + e.weight) (dget st.dist v) = true
    · rw [if_pos himp]
      have hvu : v ≠ u := by
        intro hvu
        subst hvu
        have := qLtDv_some_lt himp d hdu
        linarith
      have hvs : v ≠ s := by
        intro hvs
        subst hvs
        have := qLtDv_some_lt himp 0 hds
        linarith
      have hget_ne : ∀ x, x ≠ v → dget (amapSet st.dist v (some (d + e.weight))) x = dget st.dist x :=
        fun x hx => dget_amapSet_ne _ _ _ _ (fun e' => hx e'.symm)
      have hget_v : dget (amapSet st.dist v (some (d + e.weight))) v = some (d + e.weight) :=
        dget_amapSet_self _ _ _
      have hnotin : ((d + e.weight, v) : ℚ × String) ∉ st.pq := by
        intro hin
        obtain ⟨r, hr, hler⟩ := hpd _ hin
        have := qLtDv_some_lt himp r hr
        dsimp at hler
        linarith
      refine ⟨hd0, huU, ?_, ?_, ?_, ?_, ?_, ?_, ?_, ?_, ?_, ?_, ?_, ?_, ?_⟩
      · intro x
        by_cases hx : x = v
        · subst hx
          rw [amapGet?_amapSet_self]
          simpa using hvU
        · rw [amapGet?_amapSet_ne _ _ _ _ (fun e' => hx e'.symm)]
          exact hkeys x
      · rw [hget_ne s (fun e' => hvs e'.symm)]
        exact hds
      · rw [hget_ne u (fun e' => hvu e'.symm)]
        exact hdu
      · intro hin
        rcases List.mem_cons.mp hin with heq | hmem
        · exact hvu (congrArg Prod.snd heq).symm
        · exact hnip hmem
      · intro p hp
        rcases List.mem_cons.mp hp with heq | hmem
        · rw [heq]
          exact hndge
        · exact hpf p hmem
      · intro p hp
        rcases List.mem_cons.mp hp with heq | hmem
        · rw [heq]
          exact hvU
        · exact hpu p hmem
      · intro p hp
        rcases List.mem_cons.mp hp with heq | hmem
        · subst heq
          exact ⟨d + e.weight, hget_v, le_refl _⟩
        · obtain ⟨q, hq, hle⟩ := hpd p hmem
          by_cases hx : p.2 = v
          · rw [hx] at hq ⊢
            refine ⟨d + e.weight, hget_v, ?_⟩
            have := qLtDv_some_lt himp q hq
            linarith
          · rw [hget_ne p.2 hx]
            exact ⟨q, hq, hle⟩
      · exact List.Nodup.cons hnotin hpn
      · intro x hxU q hq
        by_cases hx : x = v
        · subst hx
          rw [hget_v] at hq
          cases hq
          exact WalkW.step (hwalk u huU d hdu) hadj_uv
        · rw [hget_ne x hx] at hq
          exact hwalk x hxU q hq
      · intro u' v' w hadj q hq
        by_cases hu'v : u' = v
        · subst hu'v
          rw [hget_v] at hq
          cases hq
          exact Or.inr (Or.inl (List.mem_cons_self _ _))
        · rw [hget_ne u' hu'v] at hq
          rcases hrel u' v' w hadj q hq with ⟨r, hr, hler⟩ | hm | ⟨hu', hq', hc⟩
          · by_cases hv' : v' = v
            · subst hv'
              refine Or.inl ⟨d + e.weight, hget_v, ?_⟩
              have := qLtDv_some_lt himp r hr
              linarith
            · rw [← hget_ne v' hv'] at hr
              exact Or.inl ⟨r, hr, hler⟩
          · exact Or.inr (Or.inl (List.mem_cons_of_mem _ hm))
          · rcases citesTarget_cons_elim hc with ⟨ht', hw'⟩ | hc'
            · rw [ht'] at ht
              cases ht
              refine Or.inl ⟨d + e.weight, hget_v, ?_⟩
              rw [hq', ← hw']
            · exact Or.inr (Or.inr ⟨hu', hq', hc'⟩)
      · intro x u' hp
        by_cases hx : x = v
        · subst hx
          rw [amapGet?_amapSet_self] at hp
          cases hp
          refine ⟨hvU, huU, hvs, e.weight, d, d + e.weight, hadj_uv, ?_, hget_v, le_refl _,
            Or.inl rfl⟩
          rw [hget_ne u (fun e' => hvu e'.symm)]
          exact hdu
        · rw [amapGet?_amapSet_ne _ _ _ _ (fun e' => hx e'.symm)] at hp
          obtain ⟨hxU, hu'U, hxs, w, qu, qv, hadj, hqu, hqv, hle, hdisj⟩ := hpar x u' hp
          by_cases hu'v : u' = v
          · subst hu'v
            have hlt := qLtDv_some_lt himp qu hqu
            refine ⟨hxU, hvU, hxs, w, d + e.weight, qv, hadj, hget_v, ?_, by linarith, ?_⟩
            · rw [hget_ne x hx]
              exact hqv
            · exact Or.inr (Or.inl (List.mem_cons_self _ _))
          · refine ⟨hxU, hu'U, hxs, w, qu, qv, hadj, ?_, ?_, hle, ?_⟩
            · rw [hget_ne u' hu'v]
              exact hqu
            · rw [hget_ne x hx]
              exact hqv
            · rcases hdisj with he' | hm | ⟨hu', hq', hc⟩
              · exact Or.inl he'
              · exact Or.inr (Or.inl (List.mem_cons_of_mem _ hm))
              · rcases citesTarget_cons_elim hc with ⟨ht', _⟩ | hc'
                · rw [ht'] at ht
                  cases ht
                  exact absurd rfl hx
                · exact Or.inr (Or.inr ⟨hu', hq', hc'⟩)
      · intro x hxU hxs q hq
        by_cases hx : x = v
        · subst hx
          rw [amapGet?_amapSet_self]
          rfl
        · rw [hget_ne x hx] at hq
          rw [amapGet?_amapSet_ne _ _ _ _ (fun e' => hx e'.symm)]
          exact hpdom x hxU hxs q hq
      · obtain ⟨tb, htb'⟩ := htb
        refine ⟨fun y => if y = v then tb u + 1 else tb y, ?_⟩
        intro x u' hp qu' qv' hqu' hqv' heq
        by_cases hx : x = v
        · rw [hx, amapGet?_amapSet_self] at hp
          have hu'eq : u' = u := by cases hp; rfl
          rw [hx] at hqv'
          rw [hget_v] at hqv'
          rw [hx, hu'eq]
          show (if u = v then tb u + 1 else tb u) < (if v = v then tb u + 1 else tb v)
          rw [if_neg (Ne.symm hvu), if_pos rfl]
          linarith
        · rw [amapGet?_amapSet_ne _ _ _ _ (fun e' => hx e'.symm)] at hp
          rw [hget_ne x hx] at hqv'
          by_cases hu'v : u' = v
          · exfalso
            rw [hu'v, hget_v] at hqu'
            have hqu'eq : qu' = d + e.weight := by cases hqu'; rfl
            obtain ⟨hxU, hu'U2, hxs, w, qu, qv, hadj, hqu, hqv, hle, hdisj⟩ := hpar x u' hp
            have hlt := qLtDv_some_lt himp qu (hu'v ▸ hqu)
            have hw0' : 0 ≤ w := adj_nonneg hwf hadj
            rw [hqv] at hqv'
            have hqv'eq : qv' = qv := by cases hqv'; rfl
            linarith
          · rw [hget_ne u' hu'v] at hqu'
            show (if u' = v then tb u + 1 else tb u') < (if x = v then tb u + 1 else tb x)
            rw [if_neg hu'v, if_neg hx]
            exact htb' x u' hp qu' qv' hqu' hqv' heq
    · rw [if_neg himp]
      have hle_nd := qLtDv_false_le (Bool.eq_false_iff.mpr (fun e' => himp e'))
      obtain ⟨r, hr, hler⟩ := hle_nd
      refine ⟨hd0, huU, hkeys, hds, hdu, hnip, hpf, hpu, hpd, hpn, hwalk, ?_, ?_, hpdom, htb⟩
      · intro u' v' w hadj q hq
        rcases hrel u' v' w hadj q hq with hl | hm | ⟨hu', hq', hc⟩
        · exact Or.inl hl
        · exact Or.inr (Or.inl hm)
        · rcases citesTarget_cons_elim hc with ⟨ht', hw'⟩ | hc'
          · rw [ht'] at ht
            cases ht
            refine Or.inl ⟨r, hr, ?_⟩
            rw [hq', ← hw']
            exact hler
          · exact Or.inr (Or.inr ⟨hu', hq', hc'⟩)
      · intro x u' hp
        obtain ⟨hxU, hu'U, hxs, w, qu, qv, hadj, hqu, hqv, hle, hdisj⟩ := hpar x u' hp
        refine ⟨hxU, hu'U, hxs, w, qu, qv, hadj, hqu, hqv, hle, ?_⟩
        rcases hdisj with he' | hm | ⟨hu', hq', hc⟩
        · exact Or.inl he'
        · exact Or.inr (Or.inl hm)
        · rcases citesTarget_cons_elim hc with ⟨ht', hw'⟩ | hc'
          · rw [ht'] at ht
            cases ht
            rw [hr] at hqv
            cases hqv
            refine Or.inl ?_
            rw [hu'] at hqu
            rw [hdu] at hqu
            cases hqu
            linarith
          · exact Or.inr (Or.inr ⟨hu', hq', hc'⟩)

theorem rinv_fold (g : GraphSt) (s : String) (hwf : WFGraph g) (u : String) (d : ℚ) :
    ∀ (l : List EdgeR) (st : DijkstraSt), (∀ e ∈ l, e ∈ g.edges) →
    RInv g s u d l st → RInv g s u d [] (l.foldl (relaxOne u d) st) := by
  intro l
  induction l with
  | nil =>
    intro st _ h
    exact h
  | cons e rest ih =>
    intro st hsub h
    rw [List.foldl_cons]
    exact ih _ (fun e' he' => hsub e' (List.mem_cons_of_mem _ he'))
      (rinv_relaxOne g s hwf u d e rest st (hsub e (List.mem_cons_self _ _)) h)

theorem relaxOne_preserves_done (u : String) (d : ℚ) (st : DijkstraSt) (e : EdgeR)
    (x : String) (q : ℚ) (hq : dget st.dist x = some q) (hle : q ≤ d)
    (hnp : ((q, x) : ℚ × String) ∉ st.pq) (hw : 0 ≤ e.weight) :
    dget (relaxOne u d st e).dist x = some q ∧
      ((q, x) : ℚ × String) ∉ (relaxOne u d st e).pq := by
  rw [relaxOne]
  cases ht : target e u with
  | none => exact ⟨hq, hnp⟩
  | some v =>
    dsimp only
    by_cases himp : qLtDv (d + e.weight) (dget st.dist v) = true
    · rw [if_pos himp]
      have hxv : x ≠ v := by
        intro hxv
        subst hxv
        have := qLtDv_some_lt himp q hq
        linarith
      constructor
      · rw [dget_amapSet_ne _ _ _ _ (fun e' => hxv e'.symm)]
        exact hq
      · intro hin
        rcases List.mem_cons.mp hin with heq | hmem
        · exact hxv (congrArg Prod.snd heq)
        · exact hnp hmem
    · rw [if_neg himp]
      exact ⟨hq, hnp⟩

theorem fold_preserves_done (u : String) (d : ℚ) :
    ∀ (l : List EdgeR) (st : DijkstraSt), (∀ e ∈ l, 0 ≤ e.weight) →
    ∀ (x : String) (q : ℚ), dget st.dist x = some q → q ≤ d →
      ((q, x) : ℚ × String) ∉ st.pq →
      dget (l.foldl (relaxOne u d) st).dist x = some q ∧
        ((q, x) : ℚ × String) ∉ (l.foldl (relaxOne u d) st).pq := by
  intro l
  induction l with
  | nil =>
    intro st _ x q hq _ hnp
    exact ⟨hq, hnp⟩
  | cons e rest ih =>
    intro st hw x q hq hle hnp
    rw [List.foldl_cons]
    obtain ⟨hq', hnp'⟩ := relaxOne_preserves_done u d st e x q hq hle hnp
      (hw e (List.mem_cons_self _ _))
    exact ih _ (fun e' he' => hw e' (List.mem_cons_of_mem _ he')) x q hq' hle hnp'

theorem relaxOne_pq_len (u : String) (d : ℚ) (st : DijkstraSt) (e : EdgeR) :
    (relaxOne u d st e).pq.length ≤ st.pq.length + 1 := by
  rw [relaxOne]
  cases target e u with
  | none => exact Nat.le_succ _
  | some v =>
    dsimp only
    by_cases himp : qLtDv (d + e.weight) (dget st.dist v) = true
    · rw [if_pos himp]
      exact Nat.le_refl _
    · rw [if_neg himp]
      exact Nat.le_succ _

theorem fold_pq_len (u : String) (d : ℚ) :
    ∀ (l : List EdgeR) (st : DijkstraSt),
      (l.foldl (relaxOne u d) st).pq.length ≤ st.pq.length + l.length := by
  intro l
  induction l with
  | nil =>
    intro st
    exact Nat.le_refl _
  | cons e rest ih =>
    intro st
    rw [List.foldl_cons]
    calc (rest.foldl (relaxOne u d) (relaxOne u d st e)).pq.length
        ≤ (relaxOne u d st e).pq.length + rest.length := ih _
      _ ≤ (st.pq.length + 1) + rest.length :=
          Nat.add_le_add_right (relaxOne_pq_len u d st e) _
      _ = st.pq.length + (e :: rest).length := by
          rw [List.length_cons]
          omega

/-! ## From the loop invariant into and out of one iteration -/

theorem qGtDv_false_eq {d : ℚ} {q : ℚ} (hq : qGtDv d (some q) = false) (hle : q ≤ d) :
    q = d := by
  have : ¬ (q < d) := of_decide_eq_false hq
  linarith [lt_or_ge q d]

theorem adj_mem_left {g : GraphSt} (hwf : WFGraph g) {u v : String} {w : ℚ}
    (h : Adj g u v w) : u ∈ g.vertices := by
  obtain ⟨e, he, hc, _⟩ := h
  rcases hc with ⟨h1, _⟩ | ⟨h1, _⟩
  · exact h1 ▸ hwf.edges_from e he
  · exact h1 ▸ hwf.edges_to e he

theorem dinv_pop_rinv (g : GraphSt) (s : String) (hwf : WFGraph g)
    (st : DijkstraSt) (floor : ℚ) (hinv : DInv g s st floor)
    (d : ℚ) (u : String) (pq' : List (ℚ × String))
    (hpop : popMin st.pq = some ((d, u), pq'))
    (hstale : qGtDv d (dget st.dist u) = false) :
    dget st.dist u = some d ∧ RInv g s u d g.edges { st with pq := pq' } := by
  have hperm := popMin_perm _ _ _ hpop
  have hmem : ((d, u) : ℚ × String) ∈ st.pq := hperm.mem_iff.mpr (List.mem_cons_self _ _)
  obtain ⟨q, hq, hqle⟩ := hinv.pq_dist _ hmem
  have hqd : q = d := by
    rw [hq] at hstale
    exact qGtDv_false_eq hstale hqle
  subst hqd
  have hnodup' : ((q, u) :: pq').Nodup := hperm.nodup hinv.pq_nodup
  have hmemshift : ∀ x ∈ st.pq, x = (q, u) ∨ x ∈ pq' := by
    intro x hx
    exact List.mem_cons.mp (hperm.mem_iff.mp hx)
  have hmemback : ∀ x ∈ pq', x ∈ st.pq := by
    intro x hx
    exact hperm.mem_iff.mpr (List.mem_cons_of_mem _ hx)
  refine ⟨hq, ?_, hinv.pq_univ _ hmem, hinv.keys_eq, hinv.dist_start, hq,
    (List.nodup_cons.mp hnodup').1, ?_, ?_, ?_, (List.nodup_cons.mp hnodup').2, hinv.walk,
    ?_, ?_, hinv.par_dom, hinv.tb⟩
  · exact le_trans hinv.floor_nonneg (hinv.pq_floor _ hmem)
  · exact popMin_le _ _ _ hpop
  · intro p hp
    exact hinv.pq_univ _ (hmemback p hp)
  · intro p hp
    exact hinv.pq_dist _ (hmemback p hp)
  · intro u' v w hadj q' hq'
    rcases hinv.relaxc u' v w hadj q' hq' with hl | hm
    · exact Or.inl hl
    · rcases hmemshift _ hm with heq | hmem'
      · have hu' : u' = u := congrArg Prod.snd heq
        have hq'' : q' = q := congrArg Prod.fst heq
        refine Or.inr (Or.inr ⟨hu', hq'', ?_⟩)
        rw [hu'] at hadj
        exact adj_cites hadj
      · exact Or.inr (Or.inl hmem')
  · intro x u' hp
    obtain ⟨hxU, hu'U, hxs, w, qu, qv, hadj, hqu, hqv, hle, hdisj⟩ := hinv.par x u' hp
    refine ⟨hxU, hu'U, hxs, w, qu, qv, hadj, hqu, hqv, hle, ?_⟩
    rcases hdisj with he' | hm
    · exact Or.inl he'
    · rcases hmemshift _ hm with heq | hmem'
      · have hu' : u' = u := congrArg Prod.snd heq
        have hq'' : qu = q := congrArg Prod.fst heq
        refine Or.inr (Or.inr ⟨hu', hq'', ?_⟩)
        rw [hu'] at hadj
        exact adj_cites hadj
      · exact Or.inr (Or.inl hmem')

theorem rinv_to_dinv (g : GraphSt) (s : String) (u : String) (d : ℚ) (st : DijkstraSt)
    (h : RInv g s u d [] st) : DInv g s st d := by
  refine ⟨h.d_nonneg, h.keys_eq, h.dist_start, h.pq_floor, h.pq_univ, h.pq_dist,
    h.pq_nodup, h.walk, ?_, ?_, h.par_dom, h.tb⟩
  · intro u' v w hadj q hq
    rcases h.relaxc u' v w hadj q hq with hl | hm | ⟨_, _, e', he', _⟩
    · exact Or.inl hl
    · exact Or.inr hm
    · cases he'
  · intro x u' hp
    obtain ⟨hxU, hu'U, hxs, w, qu, qv, hadj, hqu, hqv, hle, hdisj⟩ := h.par x u' hp
    refine ⟨hxU, hu'U, hxs, w, qu, qv, hadj, hqu, hqv, hle, ?_⟩
    rcases hdisj with he' | hm | ⟨_, _, e', he', _⟩
    · exact Or.inl he'
    · exact Or.inr hm
    · cases he'

theorem dinv_stale (g : GraphSt) (s : String) (st : DijkstraSt) (floor : ℚ)
    (hinv : DInv g s st floor) (d : ℚ) (u : String) (pq' : List (ℚ × String))
    (hpop : popMin st.pq = some ((d, u), pq'))
    (hstale : qGtDv d (dget st.dist u) = true) :
    DInv g s { st with pq := pq' } d := by
  have hperm := popMin_perm _ _ _ hpop
  have hmem : ((d, u) : ℚ × String) ∈ st.pq := hperm.mem_iff.mpr (List.mem_cons_self _ _)
  have hmemshift : ∀ x ∈ st.pq, x = (d, u) ∨ x ∈ pq' := by
    intro x hx
    exact List.mem_cons.mp (hperm.mem_iff.mp hx)
  have hdu_lt : ∀ q, dget st.dist u = some q → q < d := by
    intro q hq
    rw [hq] at hstale
    exact of_decide_eq_true hstale
  refine ⟨le_trans hinv.floor_nonneg (hinv.pq_floor _ hmem), hinv.keys_eq, hinv.dist_start,
    popMin_le _ _ _ hpop, ?_, ?_, ((hperm.nodup hinv.pq_nodup).of_cons), hinv.walk, ?_, ?_,
    hinv.par_dom, hinv.tb⟩
  · intro p hp
    exact hinv.pq_univ _ (hperm.mem_iff.mpr (List.mem_cons_of_mem _ hp))
  · intro p hp
    exact hinv.pq_dist _ (hperm.mem_iff.mpr (List.mem_cons_of_mem _ hp))
  · intro u' v w hadj q hq
    rcases hinv.relaxc u' v w hadj q hq with hl | hm
    · exact Or.inl hl
    · rcases hmemshift _ hm with heq | hmem'
      · exfalso
        have hu' : u' = u := congrArg Prod.snd heq
        have hq' : q = d := congrArg Prod.fst heq
        rw [hu'] at hq
        have := hdu_lt q hq
        rw [hq'] at this
        exact lt_irrefl d this
      · exact Or.inr hmem'
  · intro x u' hp
    obtain ⟨hxU, hu'U, hxs, w, qu, qv, hadj, hqu, hqv, hle, hdisj⟩ := hinv.par x u' hp
    refine ⟨hxU, hu'U, hxs, w, qu, qv, hadj, hqu, hqv, hle, ?_⟩
    rcases hdisj with he' | hm
    · exact Or.inl he'
    · rcases hmemshift _ hm with heq | hmem'
      · exfalso
        have hu' : u' = u := congrArg Prod.snd heq
        have hq' : qu = d := congrArg Prod.fst heq
        rw [hu'] at hqu
        have := hdu_lt qu hqu
        rw [hq'] at this
        exact lt_irrefl d this
      · exact Or.inr hmem'

/-! ## The loop variant decreases -/

theorem countP_lt_of_flip {α : Type} (l : List α) (p p' : α → Bool)
    (hmono : ∀ x ∈ l, p' x = true → p x = true) (a : α) (ha : a ∈ l)
    (hpa : p a = true) (hpa' : p' a = false) : l.countP p' < l.countP p := by
  induction l with
  | nil => cases ha
  | cons x xs ih =>
    rcases List.mem_cons.mp ha with heq | hmem
    · subst heq
      rw [List.countP_cons, List.countP_cons, hpa, hpa']
      have := List.countP_mono_left (p := p') (q := p)
        (fun y hy => hmono y (List.mem_cons_of_mem _ hy))
      simp only [if_pos rfl, Bool.false_eq_true, if_false, eq_self_iff_true, if_true]
      omega
    · rw [List.countP_cons, List.countP_cons]
      have hx : (if p' x = true then 1 else 0) ≤ (if p x = true then 1 else 0) := by
        by_cases h : p' x = true
        · rw [if_pos h, if_pos (hmono x (List.mem_cons_self _ _) h)]
        · rw [if_neg h]
          omega
      have := ih (fun y hy => hmono y (List.mem_cons_of_mem _ hy)) hmem
      omega

theorem doneB_true_elim {st : DijkstraSt} {floor : ℚ} {x : String}
    (h : doneB st floor x = true) :
    ∃ q, dget st.dist x = some q ∧ q ≤ floor ∧ ((q, x) : ℚ × String) ∉ st.pq := by
  unfold doneB at h
  cases hq : dget st.dist x with
  | none => rw [hq] at h; cases h
  | some q =>
    rw [hq] at h
    obtain ⟨h1, h2⟩ := Bool.and_eq_true_iff.mp h
    exact ⟨q, rfl, of_decide_eq_true h1, of_decide_eq_true h2⟩

theorem doneB_true_intro {st : DijkstraSt} {floor : ℚ} {x : String} {q : ℚ}
    (hq : dget st.dist x = some q) (h1 : q ≤ floor)
    (h2 : ((q, x) : ℚ × String) ∉ st.pq) : doneB st floor x = true := by
  unfold doneB
  rw [hq]
  dsimp only
  rw [decide_eq_true h1, decide_eq_true h2]
  rfl

theorem doneB_false_intro {st : DijkstraSt} {floor : ℚ} {x : String} {q : ℚ}
    (hq : dget st.dist x = some q) (h2 : ((q, x) : ℚ × String) ∈ st.pq) :
    doneB st floor x = false := by
  unfold doneB
  rw [hq]
  dsimp only
  have hdec : decide (((q, x) : ℚ × String) ∉ st.pq) = false := by
    simp [h2]
  rw [hdec]
  simp

theorem measure_stale_lt (g : GraphSt) (s : String) (st : DijkstraSt) (floor : ℚ)
    (hinv : DInv g s st floor) (d : ℚ) (u : String) (pq' : List (ℚ × String))
    (hpop : popMin st.pq = some ((d, u), pq')) :
    dMeasure g s { st with pq := pq' } d < dMeasure g s st floor := by
  have hperm := popMin_perm _ _ _ hpop
  have hlen : st.pq.length = pq'.length + 1 := by simpa using hperm.length_eq
  have hfl : floor ≤ d := hinv.pq_floor _ (hperm.mem_iff.mpr (List.mem_cons_self _ _))
  have hmono : ∀ x, doneB st floor x = true → doneB { st with pq := pq' } d x = true := by
    intro x hx
    obtain ⟨q, hq, h1, h2⟩ := doneB_true_elim hx
    refine doneB_true_intro hq (le_trans h1 hfl) ?_
    intro hin
    exact h2 (hperm.mem_iff.mpr (List.mem_cons_of_mem _ hin))
  have hcount : (dUniv g s).dedup.countP (fun x => ! doneB { st with pq := pq' } d x) ≤
      (dUniv g s).dedup.countP (fun x => ! doneB st floor x) := by
    refine List.countP_mono_left ?_
    intro a _ ha
    rw [Bool.not_eq_true'] at ha ⊢
    by_contra hc
    rw [Bool.not_eq_false] at hc
    rw [hmono a hc] at ha
    cases ha
  unfold dMeasure
  have := Nat.mul_le_mul_left (g.edges.length + 2) hcount
  have hproj : ({ st with pq := pq' } : DijkstraSt).pq.length = pq'.length := rfl
  omega

theorem measure_nonstale_lt (g : GraphSt) (s : String) (hwf : WFGraph g)
    (st : DijkstraSt) (floor d : ℚ) (u : String) (pq' : List (ℚ × String))
    (hinv : DInv g s st floor)
    (hpop : popMin st.pq = some ((d, u), pq'))
    (hdu : dget st.dist u = some d)
    (hr : RInv g s u d [] (g.edges.foldl (relaxOne u d) { st with pq := pq' })) :
    dMeasure g s (g.edges.foldl (relaxOne u d) { st with pq := pq' }) d <
      dMeasure g s st floor := by
  have hperm := popMin_perm _ _ _ hpop
  have hlen : st.pq.length = pq'.length + 1 := by simpa using hperm.length_eq
  have hmem_u : ((d, u) : ℚ × String) ∈ st.pq := hperm.mem_iff.mpr (List.mem_cons_self _ _)
  have hfl : floor ≤ d := hinv.pq_floor _ hmem_u
  have hmono : ∀ x, doneB st floor x = true →
      doneB (g.edges.foldl (relaxOne u d) { st with pq := pq' }) d x = true := by
    intro x hx
    obtain ⟨q, hq, h1, h2⟩ := doneB_true_elim hx
    have hnp' : ((q, x) : ℚ × String) ∉ pq' := by
      intro hin
      exact h2 (hperm.mem_iff.mpr (List.mem_cons_of_mem _ hin))
    obtain ⟨hq', hnp''⟩ := fold_preserves_done u d g.edges { st with pq := pq' }
      (fun e he => hwf.nonneg e he) x q hq (le_trans h1 hfl) hnp'
    exact doneB_true_intro hq' (le_trans h1 hfl) hnp''
  have hflip_old : doneB st floor u = false := doneB_false_intro hdu hmem_u
  have hflip_new : doneB (g.edges.foldl (relaxOne u d) { st with pq := pq' }) d u = true :=
    doneB_true_intro hr.dist_u (le_refl d) hr.not_in_pq
  have huU : u ∈ (dUniv g s).dedup := List.mem_dedup.mpr (hinv.pq_univ _ hmem_u)
  have hcount : (dUniv g s).dedup.countP
      (fun x => ! doneB (g.edges.foldl (relaxOne u d) { st with pq := pq' }) d x) <
      (dUniv g s).dedup.countP (fun x => ! doneB st floor x) := by
    refine countP_lt_of_flip _ _ _ ?_ u huU ?_ ?_
    · intro a _ ha
      rw [Bool.not_eq_true'] at ha ⊢
      by_contra hc
      rw [Bool.not_eq_false] at hc
      rw [hmono a hc] at ha
      cases ha
    · rw [hflip_old]
      rfl
    · rw [hflip_new]
      rfl
  have hlen'' : (g.edges.foldl (relaxOne u d) { st with pq := pq' }).pq.length ≤
      pq'.length + g.edges.length := fold_pq_len u d g.edges _
  unfold dMeasure
  have hmul := Nat.mul_le_mul_left (g.edges.length + 2) (Nat.succ_le_of_lt hcount)
  rw [Nat.mul_succ] at hmul
  omega

/-! ## Termination of the Dijkstra loop within the canonical fuel -/

theorem dijkstra_terminates (g : GraphSt) (s : String) (hwf : WFGraph g) :
    ∀ (fuel : Nat) (st : DijkstraSt) (floor : ℚ), DInv g s st floor →
      dMeasure g s st floor < fuel →
      ∃ stf floorf, dijkstraLoop g.edges fuel st = some stf ∧
        DInv g s stf floorf ∧ stf.pq = [] := by
  intro fuel
  induction fuel with
  | zero =>
    intro st floor _ h
    exact absurd h (Nat.not_lt_zero _)
  | succ fuel ih =>
    intro st floor hinv hm
    cases hpop : popMin st.pq with
    | none =>
      have hpq := (popMin_eq_none _).mp hpop
      refine ⟨st, floor, ?_, hinv, hpq⟩
      rw [dijkstraLoop, hpop]
    | some pr =>
      obtain ⟨⟨d, u⟩, pq'⟩ := pr
      by_cases hstale : qGtDv d (dget st.dist u) = true
      · obtain ⟨stf, floorf, hloop, hinv', hpq'⟩ :=
          ih { st with pq := pq' } d (dinv_stale g s st floor hinv d u pq' hpop hstale)
            (Nat.lt_of_lt_of_le (measure_stale_lt g s st floor hinv d u pq' hpop)
              (Nat.lt_succ_iff.mp hm))
        refine ⟨stf, floorf, ?_, hinv', hpq'⟩
        rw [dijkstraLoop, hpop]
        dsimp only
        rw [if_pos hstale]
        exact hloop
      · obtain ⟨hdu, hr⟩ := dinv_pop_rinv g s hwf st floor hinv d u pq' hpop
          (Bool.eq_false_iff.mpr (fun e => hstale e))
        have hr' := rinv_fold g s hwf u d g.edges _ (fun e he => he) hr
        obtain ⟨stf, floorf, hloop, hinv', hpq'⟩ :=
          ih (g.edges.foldl (relaxOne u d) { st with pq := pq' }) d
            (rinv_to_dinv g s u d _ hr')
            (Nat.lt_of_lt_of_le
              (measure_nonstale_lt g s hwf st floor d u pq' hinv hpop hdu hr')
              (Nat.lt_succ_iff.mp hm))
        refine ⟨stf, floorf, ?_, hinv', hpq'⟩
        rw [dijkstraLoop, hpop]
        dsimp only
        rw [if_neg hstale]
        exact hloop

/-! ## The invariant holds initially -/

theorem amapGet?_const_map (l : List String) (x : String) :
    amapGet? (l.map (fun v => (v, (none : Option ℚ)))) x =
      if x ∈ l then some none else none := by
  induction l with
  | nil => simp [amapGet?]
  | cons a rest ih =>
    by_cases ha : a = x
    · subst ha
      simp [amapGet?]
    · rw [List.map_cons, amapGet?, if_neg ha, ih]
      by_cases hx : x ∈ rest
      · rw [if_pos hx, if_pos (List.mem_cons_of_mem _ hx)]
      · have hnx : x ∉ a :: rest := by
          intro hmem
          rcases List.mem_cons.mp hmem with h | h
          · exact ha h.symm
          · exact hx h
        rw [if_neg hx, if_neg hnx]

theorem initDist_get (g : GraphSt) (s : String) (x : String) :
    amapGet? (initDist g s) x =
      if x = s then some (some 0)
      else if x ∈ g.vertices then some none else none := by
  unfold initDist
  by_cases hx : x = s
  · subst hx
    rw [amapGet?_amapSet_self, if_pos rfl]
  · rw [amapGet?_amapSet_ne _ _ _ _ (fun e => hx e.symm), amapGet?_const_map, if_neg hx]

theorem dinv_init (g : GraphSt) (s : String) (hwf : WFGraph g) :
    DInv g s (initSt g s) 0 := by
  have hs : dget (initSt g s).dist s = some 0 := by
    show dget (initDist g s) s = some 0
    rw [dget, initDist_get, if_pos rfl]
    rfl
  have hnone : ∀ x, x ≠ s → x ∈ g.vertices → dget (initSt g s).dist x = none := by
    intro x hx hmem
    show dget (initDist g s) x = none
    rw [dget, initDist_get, if_neg hx, if_pos hmem]
    rfl
  refine ⟨le_refl 0, ?_, hs, ?_, ?_, ?_, ?_, ?_, ?_, ?_, ?_, ?_⟩
  · intro v
    show (amapGet? (initDist g s) v).isSome = true ↔ v ∈ dUniv g s
    rw [initDist_get]
    by_cases hv : v = s
    · simp [hv, dUniv]
    · by_cases hm : v ∈ g.vertices <;> simp [hv, hm, dUniv]
  · intro p hp
    rcases List.mem_singleton.mp hp with rfl
    exact le_refl 0
  · intro p hp
    rcases List.mem_singleton.mp hp with rfl
    exact List.mem_cons_self _ _
  · intro p hp
    rcases List.mem_singleton.mp hp with rfl
    exact ⟨0, hs, le_refl 0⟩
  · exact List.nodup_singleton _
  · intro v hvU q hq
    by_cases hv : v = s
    · subst hv
      rw [hs] at hq
      cases hq
      exact WalkW.refl
    · rcases List.mem_cons.mp hvU with hv' | hv'
      · exact absurd hv' hv
      · rw [hnone v hv hv'] at hq
        cases hq
  · intro u v w hadj q hq
    have huV : u ∈ g.vertices := adj_mem_left hwf hadj
    by_cases hu : u = s
    · subst hu
      rw [hs] at hq
      cases hq
      exact Or.inr (List.mem_singleton.mpr rfl)
    · rw [hnone u hu huV] at hq
      cases hq
  · intro v u hp
    simp [amapGet?] at hp
  · intro v hvU hvs q hq
    rcases List.mem_cons.mp hvU with hv' | hv'
    · exact absurd hv' hvs
    · rw [hnone v hvs hv'] at hq
      cases hq
  · refine ⟨fun _ => 0, ?_⟩
    intro v u hp
    simp [amapGet?] at hp

theorem dijkstra_runs (g : GraphSt) (s : String) (hwf : WFGraph g) :
    ∃ stf floorf, dijkstraLoop g.edges (dijkstraFuel g) (initSt g s) = some stf ∧
      DInv g s stf floorf ∧ stf.pq = [] := by
  apply dijkstra_terminates g s hwf _ _ 0 (dinv_init g s hwf)
  unfold dMeasure dijkstraFuel
  have h1 : (dUniv g s).dedup.countP (fun u => ! doneB (initSt g s) 0 u) ≤
      (dUniv g s).dedup.length := List.countP_le_length _
  have h2 : (dUniv g s).dedup.length ≤ (dUniv g s).length := (List.dedup_sublist _).length_le
  have h3 : (dUniv g s).length = g.vertices.length + 1 := by simp [dUniv]
  have h4 : (initSt g s).pq.length = 1 := rfl
  have hmul := Nat.mul_le_mul_left (g.edges.length + 2)
    (show (dUniv g s).dedup.countP (fun u => ! doneB (initSt g s) 0 u) ≤
      g.vertices.length + 1 by omega)
  omega

/-! ## Consequences at the final state -/

theorem final_relax (g : GraphSt) (s : String) (stf : DijkstraSt) (floorf : ℚ)
    (h : DInv g s stf floorf) (hpq : stf.pq = []) :
    ∀ u v w, Adj g u v w → ∀ q, dget stf.dist u = some q →
      ∃ r, dget stf.dist v = some r ∧ r ≤ q + w := by
  intro u v w hadj q hq
  rcases h.relaxc u v w hadj q hq with hl | hm
  · exact hl
  · rw [hpq] at hm
    cases hm

theorem walk_to_dist (g : GraphSt) (s : String) (stf : DijkstraSt) (floorf : ℚ)
    (h : DInv g s stf floorf) (hpq : stf.pq = []) :
    ∀ v q, WalkW g s v q → ∃ r, dget stf.dist v = some r ∧ r ≤ q := by
  intro v q hw
  induction hw with
  | refl => exact ⟨0, h.dist_start, le_refl 0⟩
  | step hw' hadj ih =>
    obtain ⟨r, hr, hrle⟩ := ih
    obtain ⟨r2, hr2, hr2le⟩ := final_relax g s stf floorf h hpq _ _ _ hadj r hr
    exact ⟨r2, hr2, by linarith⟩

theorem walkW_nonneg {g : GraphSt} (hwf : WFGraph g) {s v : String} {q : ℚ}
    (h : WalkW g s v q) : 0 ≤ q := by
  induction h with
  | refl => exact le_refl 0
  | step hw' hadj ih =>
    have := adj_nonneg hwf hadj
    linarith

theorem adj_symm {g : GraphSt} {u v : String} {w : ℚ} (h : Adj g u v w) : Adj g v u w := by
  obtain ⟨e, he, hc, hw⟩ := h
  rcases hc with ⟨h1, h2⟩ | ⟨h1, h2⟩
  · exact ⟨e, he, Or.inr ⟨h2, h1⟩, hw⟩
  · exact ⟨e, he, Or.inl ⟨h2, h1⟩, hw⟩

theorem walkW_front {g : GraphSt} {a b x : String} {w q : ℚ}
    (hadj : Adj g a b w) (h : WalkW g b x q) : WalkW g a x (w + q) := by
  induction h with
  | refl =>
    have h0 := WalkW.step (WalkW.refl (g := g) (s := a)) hadj
    rw [zero_add] at h0
    rw [add_zero]
    exact h0
  | step hw' hadj' ih =>
    have := WalkW.step ih hadj'
    rw [add_assoc] at this
    exact this

theorem walkW_reverse {g : GraphSt} {s v : String} {q : ℚ}
    (h : WalkW g s v q) : WalkW g v s q := by
  induction h with
  | refl => exact WalkW.refl
  | step hw' hadj ih =>
    have := walkW_front (adj_symm hadj) ih
    rw [add_comm] at this
    exact this

/-! ## Reconstruction follows the parent chain back to the start -/

theorem parChain_last (par : AMap String) (s : String) :
    ∀ p v, ParChain par s p v → p.getLast? = some v := by
  intro p v h
  induction h with
  | base => rfl
  | step hch hp hvs ih => exact List.getLast?_concat _

theorem parChain_ne_nil (par : AMap String) (s : String) (p : List String) (v : String)
    (h : ParChain par s p v) : p ≠ [] := by
  intro hnil
  have := parChain_last par s p v h
  rw [hnil] at this
  cases this

theorem reconstruct_ok (par : AMap String) (dist : AMap (Option ℚ)) (univ : List String)
    (s : String) (tb : String → ℚ)
    (hpar : ∀ v u, amapGet? par v = some u →
      u ∈ univ ∧ ∃ qu qv, dget dist u = some qu ∧ dget dist v = some qv ∧
        qu ≤ qv ∧ (qu = qv → tb u < tb v))
    (hdom : ∀ v ∈ univ, v ≠ s → ∀ q, dget dist v = some q → (amapGet? par v).isSome) :
    ∀ (n : Nat) (v : String) (qv : ℚ), v ∈ univ → dget dist v = some qv →
      univ.dedup.countP (fun x => rnkB dist tb x v) < n →
      ∃ p, reconstruct par s n v = some p ∧ ParChain par s p v := by
  intro n
  induction n with
  | zero =>
    intro v qv _ _ hcount
    exact absurd hcount (Nat.not_lt_zero _)
  | succ n ih =>
    intro v qv hvU hqv hcount
    by_cases hvs : v = s
    · subst hvs
      refine ⟨[v], ?_, ParChain.base⟩
      rw [reconstruct, if_pos rfl]
    · have hdm := hdom v hvU hvs qv hqv
      obtain ⟨u, hu⟩ := Option.isSome_iff_exists.mp hdm
      obtain ⟨huU, qu, qv', hqu, hqv', hle, himp⟩ := hpar v u hu
      rw [hqv] at hqv'
      cases hqv'
      have hrnk_uv : rnkB dist tb u v = true := by
        unfold rnkB
        rw [hqu, hqv]
        dsimp only
        rcases lt_or_eq_of_le hle with hlt | heq
        · rw [decide_eq_true hlt]
          rfl
        · rw [decide_eq_true heq, decide_eq_true (himp heq)]
          simp
      have hrnk_irrefl : rnkB dist tb u u = false := by
        unfold rnkB
        rw [hqu]
        dsimp only
        simp [lt_irrefl]
      have hmono : ∀ x ∈ univ.dedup, rnkB dist tb x u = true → rnkB dist tb x v = true := by
        intro x _ hx
        unfold rnkB at hx ⊢
        cases hgx : dget dist x with
        | none =>
          rw [hgx] at hx
          dsimp only at hx
          cases hx
        | some qx =>
          rw [hgx, hqu] at hx
          rw [hqv]
          dsimp only at hx ⊢
          rcases Bool.or_eq_true_iff.mp hx with h1 | h1
          · have hlt : qx < qu := of_decide_eq_true h1
            have : qx < qv := lt_of_lt_of_le hlt hle
            rw [decide_eq_true this]
            rfl
          · obtain ⟨ha, hb⟩ := Bool.and_eq_true_iff.mp h1
            have hxe : qx = qu := of_decide_eq_true ha
            have htbx : tb x < tb u := of_decide_eq_true hb
            rcases lt_or_eq_of_le hle with h2 | h2
            · have : qx < qv := hxe ▸ h2
              rw [decide_eq_true this]
              rfl
            · have hxv : qx = qv := by rw [hxe, h2]
              have : tb x < tb v := lt_trans htbx (himp h2)
              rw [decide_eq_true hxv, decide_eq_true this]
              simp
      have hcnt : univ.dedup.countP (fun x => rnkB dist tb x u) <
          univ.dedup.countP (fun x => rnkB dist tb x v) :=
        countP_lt_of_flip _ _ _ hmono u (List.mem_dedup.mpr huU) hrnk_uv hrnk_irrefl
      obtain ⟨p', hrec', hch'⟩ := ih u qu huU hqu (by omega)
      refine ⟨p' ++ [v], ?_, ParChain.step hch' hu hvs⟩
      rw [reconstruct, if_neg hvs]
      have hpg : pgetD par v = u := by rw [pgetD, hu]; rfl
      rw [hpg, hrec']

/-! ## The re-summation along the reconstructed path -/

theorem foldl_add_init (f : String × String → ℚ) :
    ∀ (l : List (String × String)) (a : ℚ),
      l.foldl (fun acc p => acc + f p) a = a + l.foldl (fun acc p => acc + f p) 0 := by
  intro l
  induction l with
  | nil =>
    intro a
    simp
  | cons x xs ih =>
    intro a
    rw [List.foldl_cons, List.foldl_cons, ih (a + f x), ih (0 + f x)]
    ring

theorem pathSum_cons_cons (g : GraphSt) (x y : String) (rest : List String) :
    pathSum g (x :: y :: rest) = (firstMatchW g.edges x y).getD 0 + pathSum g (y :: rest) := by
  unfold pathSum
  rw [show (x :: y :: rest).tail = y :: rest from rfl,
    show (y :: rest).tail = rest from rfl, List.zip_cons_cons, List.foldl_cons,
    foldl_add_init]
  ring

theorem pathSum_concat (g : GraphSt) :
    ∀ (p : List String) (a v : String), p.getLast? = some a →
      pathSum g (p ++ [v]) = pathSum g p + (firstMatchW g.edges a v).getD 0 := by
  intro p
  induction p with
  | nil =>
    intro a v h
    cases h
  | cons x rest ih =>
    intro a v h
    cases rest with
    | nil =>
      have hax : a = x := by
        have : (some x : Option String) = some a := h
        cases this
        rfl
      subst hax
      show pathSum g [a, v] = pathSum g [a] + (firstMatchW g.edges a v).getD 0
      rw [pathSum_cons_cons]
      show _ + pathSum g [v] = _
      have h1 : pathSum g [v] = 0 := rfl
      have h2 : pathSum g [a] = 0 := rfl
      rw [h1, h2]
      ring
    | cons y rest' =>
      have hlast : (y :: rest').getLast? = some a := by
        rw [← List.getLast?_cons_cons (a := x) (b := y) (l := rest')]
        exact h
      show pathSum g (x :: ((y :: rest') ++ [v])) = _
      rw [show x :: ((y :: rest') ++ [v]) = x :: y :: (rest' ++ [v]) from rfl,
        pathSum_cons_cons,
        show y :: (rest' ++ [v]) = (y :: rest') ++ [v] from rfl,
        ih a v hlast, pathSum_cons_cons]
      ring

theorem firstMatchW_adj (g : GraphSt) (hpc : PairConsistent g) {u v : String} {w : ℚ}
    (h : Adj g u v w) : firstMatchW g.edges u v = some w := by
  obtain ⟨e0, he0, hc0, hw0⟩ := h
  unfold firstMatchW
  cases hfind : g.edges.find?
      (fun e => (e.fromId = u ∧ e.toId = v) ∨ (e.toId = u ∧ e.fromId = v)) with
  | none =>
    exfalso
    have hnone := List.find?_eq_none.mp hfind e0 he0
    apply hnone
    rcases hc0 with ⟨h1, h2⟩ | ⟨h1, h2⟩
    · exact decide_eq_true (Or.inl ⟨h1, h2⟩)
    · exact decide_eq_true (Or.inr ⟨h1, h2⟩)
  | some e1 =>
    have hp1 : (e1.fromId = u ∧ e1.toId = v) ∨ (e1.toId = u ∧ e1.fromId = v) := by
      simpa using List.find?_some hfind
    have hm1 := List.mem_of_find?_eq_some hfind
    have hweq : e1.weight = e0.weight := by
      apply hpc e1 hm1 e0 he0
      rcases hp1 with ⟨h1, h2⟩ | ⟨h1, h2⟩ <;> rcases hc0 with ⟨h3, h4⟩ | ⟨h3, h4⟩
      · exact Or.inl ⟨by rw [h1, h3], by rw [h2, h4]⟩
      · exact Or.inr ⟨by rw [h1, h3], by rw [h2, h4]⟩
      · exact Or.inr ⟨by rw [h2, h4], by rw [h1, h3]⟩
      · exact Or.inl ⟨by rw [h2, h4], by rw [h1, h3]⟩
    rw [Option.map_some']
    rw [hweq, hw0]

theorem parChain_pathSum (g : GraphSt) (hpc : PairConsistent g) (par : AMap String)
    (dist : AMap (Option ℚ)) (s : String)
    (hds : dget dist s = some 0)
    (hpeq : ∀ v u, amapGet? par v = some u →
      ∃ w qu, Adj g u v w ∧ dget dist u = some qu ∧ dget dist v = some (qu + w)) :
    ∀ p v, ParChain par s p v → ∀ qv, dget dist v = some qv → pathSum g p = qv := by
  intro p v hch
  induction hch with
  | base =>
    intro qv hqv
    rw [hds] at hqv
    cases hqv
    rfl
  | step hch' hu hvs ih =>
    intro qv hqv
    obtain ⟨w, qu, hadj, hqu, hqveq⟩ := hpeq _ _ hu
    rw [hqveq] at hqv
    cases hqv
    have hlast := parChain_last _ _ _ _ hch'
    rw [pathSum_concat g _ _ _ hlast, ih qu hqu, firstMatchW_adj g hpc hadj]
    rfl

/-! ## The characterisation of `findPathByWeight` and `distanceBetween` -/

theorem wf_buildStep (g : GraphSt) (op : BuildOp) (h : WFGraph g)
    (hw : 0 ≤ op.weightOf) : WFGraph (buildStep g op) := by
  cases op with
  | vertex id =>
    show WFGraph (addVertex g id)
    unfold addVertex
    split
    · exact h
    · rename_i hni
      refine ⟨fun e he => List.mem_append_left _ (h.edges_from e he),
        fun e he => List.mem_append_left _ (h.edges_to e he), h.nonneg, ?_⟩
      refine List.nodup_append.mpr ⟨h.nodup, List.nodup_singleton id, ?_⟩
      intro x hx hx'
      rw [List.mem_singleton] at hx'
      subst hx'
      exact hni hx
  | edge f t w =>
    show WFGraph (addEdge g f t w)
    unfold addEdge
    split
    · rename_i hmem
      have hw' : (0 : ℚ) ≤ w := hw
      refine ⟨?_, ?_, ?_, h.nodup⟩
      · intro e he
        rcases List.mem_append.mp he with he | he
        · exact h.edges_from e he
        · rw [List.mem_cons, List.mem_singleton] at he
          rcases he with rfl | rfl
          · exact hmem.1
          · exact hmem.2
      · intro e he
        rcases List.mem_append.mp he with he | he
        · exact h.edges_to e he
        · rw [List.mem_cons, List.mem_singleton] at he
          rcases he with rfl | rfl
          · exact hmem.2
          · exact hmem.1
      · intro e he
        rcases List.mem_append.mp he with he | he
        · exact h.nonneg e he
        · rw [List.mem_cons, List.mem_singleton] at he
          rcases he with rfl | rfl <;> exact hw'
    · exact h

theorem foldl_build_wf : ∀ (ops : List BuildOp) (g : GraphSt), WFGraph g →
    (∀ op ∈ ops, 0 ≤ op.weightOf) → WFGraph (ops.foldl buildStep g) := by
  intro ops
  induction ops with
  | nil =>
    intro g hg _
    exact hg
  | cons op rest ih =>
    intro g hg hnn
    rw [List.foldl_cons]
    exact ih _ (wf_buildStep g op hg (hnn op (List.mem_cons_self _ _)))
      (fun o ho => hnn o (List.mem_cons_of_mem _ ho))

/-- Graphs built through the two public mutators (with the documented
non-negative weights) are well-formed. -/
theorem runBuild_wf (ops : List BuildOp) (hnn : ∀ op ∈ ops, 0 ≤ op.weightOf) :
    WFGraph (runBuild ops) :=
  foldl_build_wf ops ⟨[], []⟩
    ⟨fun e he => absurd he (List.not_mem_nil e),
     fun e he => absurd he (List.not_mem_nil e),
     fun e he => absurd he (List.not_mem_nil e), List.nodup_nil⟩ hnn

/-- Once the queue is empty, every parent entry records an exact
relaxation: `dist[v] = dist[parent[v]] + w` for an incident weight `w`. -/
theorem final_par_eq (g : GraphSt) (s : String) (stf : DijkstraSt) (floorf : ℚ)
    (h : DInv g s stf floorf) (hpq : stf.pq = []) :
    ∀ v u, amapGet? stf.parent v = some u →
      ∃ w qu, Adj g u v w ∧ dget stf.dist u = some qu ∧
        dget stf.dist v = some (qu + w) := by
  intro v u hu
  obtain ⟨_, _, _, w, qu, qv, hadj, hqu, hqv, _, heqor⟩ := h.par v u hu
  rcases heqor with heq | hmem
  · exact ⟨w, qu, hadj, hqu, heq ▸ hqv⟩
  · rw [hpq] at hmem
    cases hmem

/-- The reconstruction loop succeeds within `|V| + 2` steps for every
endpoint whose final distance is finite. -/
theorem final_reconstruct (g : GraphSt) (s : String) (hwf : WFGraph g)
    (stf : DijkstraSt) (floorf : ℚ) (h : DInv g s stf floorf) (hpq : stf.pq = [])
    (e : String) (qe : ℚ) (he : e ∈ dUniv g s) (hqe : dget stf.dist e = some qe) :
    ∃ p, reconstruct stf.parent s (g.vertices.length + 2) e = some p ∧
      ParChain stf.parent s p e := by
  obtain ⟨tb, htb⟩ := h.tb
  have hpar : ∀ v u, amapGet? stf.parent v = some u →
      u ∈ dUniv g s ∧ ∃ qu qv, dget stf.dist u = some qu ∧ dget stf.dist v = some qv ∧
        qu ≤ qv ∧ (qu = qv → tb u < tb v) := by
    intro v u hu
    obtain ⟨hvU, huU, hvs, w, qu, qv, hadj, hqu, hqv, hle, _⟩ := h.par v u hu
    refine ⟨huU, qu, qv, hqu, hqv, ?_, fun heq => htb v u hu qu qv hqu hqv heq⟩
    have := adj_nonneg hwf hadj
    linarith
  have hcount : (dUniv g s).dedup.countP (fun x => rnkB stf.dist tb x e) <
      g.vertices.length + 2 := by
    have h1 : (dUniv g s).dedup.countP (fun x => rnkB stf.dist tb x e) ≤
        (dUniv g s).dedup.length := List.countP_le_length _
    have h2 : (dUniv g s).dedup.length ≤ (dUniv g s).length :=
      (List.dedup_sublist _).length_le
    have h3 : (dUniv g s).length = g.vertices.length + 1 := by simp [dUniv]
    omega
  exact reconstruct_ok stf.parent stf.dist (dUniv g s) s tb hpar h.par_dom
    (g.vertices.length + 2) e qe he hqe hcount

/-- On a well-formed graph, `findPathByWeight` between a vertex and a
reachable vertex returns a non-empty sequence whose re-summation (on a
pair-consistent graph) equals the least walk weight between them. -/
theorem fpbw_reach (g : GraphSt) (hwf : WFGraph g) (s e : String)
    (he : e ∈ g.vertices) (hr : Reach g s e) :
    ∃ p r, findPathByWeight g s e = some p ∧ p ≠ [] ∧
      (PairConsistent g → pathSum g p = r) ∧ WalkW g s e r ∧
      ∀ q, WalkW g s e q → r ≤ q := by
  obtain ⟨stf, floorf, hrun, hinv, hpq⟩ := dijkstra_runs g s hwf
  obtain ⟨q0, hw0⟩ := hr
  obtain ⟨r, hre, _⟩ := walk_to_dist g s stf floorf hinv hpq e q0 hw0
  have heU : e ∈ dUniv g s := List.mem_cons_of_mem _ he
  obtain ⟨p, hrec, hch⟩ := final_reconstruct g s hwf stf floorf hinv hpq e r heU hre
  have hfp : findPathByWeight g s e = some p := by
    show findPathByWeightCore g s e (dijkstraFuel g) (g.vertices.length + 2) = some p
    unfold findPathByWeightCore
    rw [hrun]
    show (match dget stf.dist e with
      | none => some []
      | some _ => reconstruct stf.parent s (g.vertices.length + 2) e) = some p
    rw [hre]
    exact hrec
  have hmin : ∀ q, WalkW g s e q → r ≤ q := by
    intro q hw
    obtain ⟨r', hr', hle'⟩ := walk_to_dist g s stf floorf hinv hpq e q hw
    rw [hre] at hr'
    cases hr'
    exact hle'
  have hwr : WalkW g s e r := hinv.walk e heU r hre
  have hps : PairConsistent g → pathSum g p = r := fun hpc =>
    parChain_pathSum g hpc stf.parent stf.dist s hinv.dist_start
      (final_par_eq g s stf floorf hinv hpq) p e hch r hre
  exact ⟨p, r, hfp, parChain_ne_nil _ _ _ _ hch, hps, hwr, hmin⟩

/-- On a well-formed graph, `findPathByWeight` to an unreachable vertex
returns the empty sequence. -/
theorem fpbw_unreach (g : GraphSt) (hwf : WFGraph g) (s e : String)
    (he : e ∈ g.vertices) (hnr : ¬ Reach g s e) :
    findPathByWeight g s e = some [] := by
  obtain ⟨stf, floorf, hrun, hinv, hpq⟩ := dijkstra_runs g s hwf
  have heU : e ∈ dUniv g s := List.mem_cons_of_mem _ he
  have hkey : (amapGet? stf.dist e).isSome := (hinv.keys_eq e).mpr heU
  obtain ⟨oq, hoq⟩ := Option.isSome_iff_exists.mp hkey
  have hde : dget stf.dist e = oq := by rw [dget, hoq]; rfl
  cases oq with
  | none =>
    show findPathByWeightCore g s e (dijkstraFuel g) (g.vertices.length + 2) = some []
    unfold findPathByWeightCore
    rw [hrun]
    show (match dget stf.dist e with
      | none => some []
      | some _ => reconstruct stf.parent s (g.vertices.length + 2) e) = some []
    rw [hde]
  | some q =>
    exact absurd ⟨q, hinv.walk e heU q hde⟩ hnr

/-- On a well-formed pair-consistent graph, `distanceBetween` between a
vertex and a reachable vertex returns the least walk weight. -/
theorem distance_reach (g : GraphSt) (hwf : WFGraph g) (hpc : PairConsistent g)
    (s e : String) (he : e ∈ g.vertices) (hr : Reach g s e) :
    ∃ r, distanceBetween g s e = some r ∧ WalkW g s e r ∧
      ∀ q, WalkW g s e q → r ≤ q := by
  obtain ⟨p, r, hfp, hne, hps, hwr, hmin⟩ := fpbw_reach g hwf s e he hr
  refine ⟨r, ?_, hwr, hmin⟩
  unfold distanceBetween
  rw [hfp]
  show (if p = [] then some (-1) else some (pathSum g p)) = some r
  rw [if_neg hne, hps hpc]

/-- **C6.** On a well-formed, pair-consistent graph and a pair of vertex
ids, `findPathByWeight` returns (it never throws); when its sequence is
non-empty, `distanceBetween` returns exactly the re-summation of the edge
weights along that sequence; and `distanceBetween` returns the sentinel
`-1` exactly when no path joins the two ids. -/
theorem claim6_distance_spec (g : GraphSt) (hwf : WFGraph g) (hpc : PairConsistent g)
    (s e : String) (hs : s ∈ g.vertices) (he : e ∈ g.vertices) :
    ∃ p, findPathByWeight g s e = some p ∧
      (p ≠ [] → distanceBetween g s e = some (pathSum g p)) ∧
      (distanceBetween g s e = some (-1) ↔ ¬ Reach g s e) := by
  by_cases hr : Reach g s e
  · obtain ⟨p, r, hfp, hne, hps, hwr, hmin⟩ := fpbw_reach g hwf s e he hr
    have hdb : distanceBetween g s e = some (pathSum g p) := by
      unfold distanceBetween
      rw [hfp]
      show (if p = [] then some (-1) else some (pathSum g p)) = some (pathSum g p)
      rw [if_neg hne]
    refine ⟨p, hfp, fun _ => hdb, ?_, fun hnr => absurd hr hnr⟩
    intro hd
    exfalso
    rw [hdb] at hd
    have h1 : pathSum g p = -1 := Option.some.inj hd
    have h2 := hps hpc
    have h3 : 0 ≤ r := walkW_nonneg hwf hwr
    rw [h2] at h1
    linarith
  · have hfp := fpbw_unreach g hwf s e he hr
    have hdb : distanceBetween g s e = some (-1) := by
      unfold distanceBetween
      rw [hfp]
      rfl
    exact ⟨[], hfp, fun hne => absurd rfl hne, fun _ => hr, fun _ => hdb⟩

/-- Witness for C6 on the three-vertex chain `a — b — c`. -/
theorem claim6_witness :
    ∃ p, findPathByWeight gW "a" "c" = some p ∧
      (p ≠ [] → distanceBetween gW "a" "c" = some (pathSum gW p)) ∧
      (distanceBetween gW "a" "c" = some (-1) ↔ ¬ Reach gW "a" "c") :=
  claim6_distance_spec gW ⟨by decide, by decide, by decide, by decide⟩
    (by unfold PairConsistent; decide) "a" "c" (by decide) (by decide)

/-- **C7, counterexample.** The graph built by `opsC7` uses only the
public mutators with non-negative weights and joins the connected
vertices `s` and `t`, yet the two distances differ (5 one way, 7 the
other): the scan of `distanceBetween` re-prices each hop at the first
stored record joining the pair, which can differ from the record the
path search used. -/
theorem claim7_counterexample :
    (∀ op ∈ opsC7, 0 ≤ op.weightOf) ∧
      "s" ∈ gC7.vertices ∧ "t" ∈ gC7.vertices ∧ (∃ q, WalkW gC7 "s" "t" q) ∧
      distanceBetween gC7 "s" "t" = some 5 ∧ distanceBetween gC7 "t" "s" = some 7 := by
  refine ⟨by decide, by decide, by decide, ⟨0 + 2 + 3, ?_⟩, by decide, by decide⟩
  exact WalkW.step
    (WalkW.step WalkW.refl ⟨⟨"s", "y", 2⟩, by decide, Or.inl ⟨rfl, rfl⟩, rfl⟩)
    ⟨⟨"y", "t", 3⟩, by decide, Or.inl ⟨rfl, rfl⟩, rfl⟩

/-- **C7, amended.** Distance symmetry holds for every graph built via
`addVertex`/`addEdge` with non-negative weights, provided the stored
records are pair-consistent — parallel records joining one unordered
pair carry equal weights (in particular whenever no pair was added
twice): then for connected vertices `a`, `b`,
`distanceBetween(a,b) = distanceBetween(b,a)`. -/
theorem claim7_symmetry (ops : List BuildOp)
    (hnn : ∀ op ∈ ops, 0 ≤ op.weightOf) (hpc : PairConsistent (runBuild ops))
    (a b : String) (ha : a ∈ (runBuild ops).vertices) (hb : b ∈ (runBuild ops).vertices)
    (hr : Reach (runBuild ops) a b) :
    distanceBetween (runBuild ops) a b = distanceBetween (runBuild ops) b a := by
  have hwf := runBuild_wf ops hnn
  obtain ⟨r1, hd1, hw1, hmin1⟩ := distance_reach _ hwf hpc a b hb hr
  obtain ⟨q0, hw0⟩ := hr
  obtain ⟨r2, hd2, hw2, hmin2⟩ := distance_reach _ hwf hpc b a ha ⟨q0, walkW_reverse hw0⟩
  have h12 : r1 ≤ r2 := hmin1 r2 (walkW_reverse hw2)
  have h21 : r2 ≤ r1 := hmin2 r1 (walkW_reverse hw1)
  rw [hd1, hd2, le_antisymm h12 h21]

/-- Witness for the amended C7 on the three-vertex chain `a — b — c`. -/
theorem claim7_witness :
    distanceBetween (runBuild [.vertex "a", .vertex "b", .vertex "c",
        .edge "a" "b" 10, .edge "b" "c" 5]) "a" "c" =
      distanceBetween (runBuild [.vertex "a", .vertex "b", .vertex "c",
        .edge "a" "b" 10, .edge "b" "c" 5]) "c" "a" :=
  claim7_symmetry [.vertex "a", .vertex "b", .vertex "c",
      .edge "a" "b" 10, .edge "b" "c" 5]
    (by decide) (by unfold PairConsistent; decide) "a" "c" (by decide) (by decide)
    ⟨0 + 10 + 5, WalkW.step
      (WalkW.step WalkW.refl ⟨⟨"a", "b", 10⟩, by decide, Or.inl ⟨rfl, rfl⟩, rfl⟩)
      ⟨⟨"b", "c", 5⟩, by decide, Or.inl ⟨rfl, rfl⟩, rfl⟩⟩

/-- **C4** (code bug): on the single-vertex graph with unknown end id
`"X"`, `findPathByWeight("A", "X")` does not terminate — no loop fuel and
no reconstruction fuel produce a result — where the spec requires an
empty sequence for unknown ids. -/
theorem claim4_findPathByWeight_diverges :
    ∀ loopFuel recFuel : Nat, findPathByWeightCore gBug "A" "X" loopFuel recFuel = none := by
  intro lf rf
  match lf with
  | 0 => rfl
  | 1 => rfl
  | n + 2 =>
    have h1 : dijkstraLoop gBug.edges (n + 1 + 1) (initSt gBug "A") =
        dijkstraLoop gBug.edges (n + 1) ⟨[("A", some 0)], [], []⟩ := rfl
    have h2 : dijkstraLoop gBug.edges (n + 1) ⟨[("A", some 0)], [], []⟩ =
        some ⟨[("A", some 0)], [], []⟩ := dijkstraLoop_nil_pq _ n _ rfl
    show findPathByWeightCore gBug "A" "X" (n + 1 + 1) rf = none
    rw [findPathByWeightCore, h1, h2]
    show (match dget ([("A", some (0 : ℚ))] : AMap (Option ℚ)) "X" with
      | none => some []
      | some _ => reconstruct ([] : AMap String) "A" rf "X") = none
    have hd : dget ([("A", some (0 : ℚ))] : AMap (Option ℚ)) "X" = some 0 := rfl
    rw [hd]
    exact reconstruct_unknown_stuck rf

end Zoo
